import Mathlib

/-!
Verification of the klepto source-code intelligence engine against its
specification.  The Rust data model (src/model.rs) and the operations the
claims concern (src/klepto.rs, src/query.rs, src/index.rs, src/snapshot.rs,
src/extract.rs, src/rules/builtin.rs) are shallowly embedded below:
`u32`/`usize` become `Nat`, `String`/`PathBuf` become `String`,
`Option<T>` becomes `Option T`, `Vec<T>` becomes `List T`, and the one
`f64` value (doc-coverage percent) is modelled in `ℚ` (on the concrete
inputs appearing in the theorems every IEEE operation involved is exact,
so the rational model agrees with the double-precision computation).
-/

/-- model.rs `FileLocation`: path plus optional 1-based line/column. -/
structure FileLocation where
  path : String
  line : Option Nat
  column : Option Nat
deriving DecidableEq

/-- model.rs `FnKind`. -/
inductive FnKind where
  | FreeFn
  | ImplMethod (self_ty : String) (trait_ty : Option String)
  | TraitMethod (trait_name : String)
deriving DecidableEq

/-- model.rs `CapturedFn`.  The Rust field `is_unsafe` is rendered
`is_unsafe_` (the unmodified name is unavailable here). -/
structure CapturedFn where
  name : String
  fq_name : String
  is_public : Bool
  has_docs : Bool
  is_async : Bool
  is_unsafe_ : Bool
  is_const : Bool
  is_generic : Bool
  args : List String
  return_ty : Option String
  kind : FnKind
  module_path : List String
  attrs : List String
  signature : String
  location : FileLocation
deriving DecidableEq

/-- model.rs `UseKind`. -/
inductive UseKind where
  | Name
  | Glob
  | Rename (alias_ : String)
deriving DecidableEq

/-- model.rs `ImportOrigin`. -/
inductive ImportOrigin where
  | Internal
  | Std
  | Core
  | Alloc
  | WorkspaceMember
  | Dependency
  | UnknownExternal
deriving DecidableEq

/-- model.rs `StolenPath` (an ImportFact). -/
structure StolenPath where
  root : String
  segments : List String
  module_path : List String
  is_internal : Bool
  is_public_use : Bool
  kind : UseKind
  full_path : String
  location : FileLocation
  origin : Option ImportOrigin
  is_absolute : Option Bool
deriving DecidableEq

/-- model.rs `ExportedSymbol`. -/
structure ExportedSymbol where
  exported_as : String
  source_path : String
  module_path : List String
  location : FileLocation
deriving DecidableEq

/-- model.rs `MacroDef`. -/
structure MacroDef where
  name : String
  module_path : List String
  location : FileLocation
deriving DecidableEq

/-- model.rs `MacroInvocation` (context-aware variant). -/
structure MacroInvocation where
  name : String
  module_path : List String
  path : Option String
  location : FileLocation
  enclosing_fn : Option String
  enclosing_public : Option Bool
deriving DecidableEq

/-- model.rs `PathOccurrence` (context-aware variant). -/
structure PathOccurrence where
  path : String
  module_path : List String
  location : FileLocation
  enclosing_fn : Option String
  enclosing_public : Option Bool
deriving DecidableEq

/-- model.rs `CallOccurrence` (context-aware variant). -/
structure CallOccurrence where
  callee : String
  module_path : List String
  location : FileLocation
  enclosing_fn : Option String
  enclosing_public : Option Bool
deriving DecidableEq

/-- model.rs `Severity`. -/
inductive Severity where
  | Info
  | Warn
  | Deny
deriving DecidableEq

/-- model.rs `Finding`.  The `extra : serde_json::Value` payload is not
modelled; no claim mentions it. -/
structure Finding where
  severity : Severity
  code : String
  message : String
  location : FileLocation
deriving DecidableEq

/-- model.rs `DocCoverage`; `percent : f64` is modelled in `ℚ`. -/
structure DocCoverage where
  public_total : Nat
  public_documented : Nat
  percent : ℚ
deriving DecidableEq

/-- index.rs `FnSpan`.  The Rust field `end` is rendered `end_`. -/
structure FnSpan where
  fq_name : String
  is_public : Bool
  kind : FnKind
  file : String
  start : Option (Nat × Nat)
  end_ : Option (Nat × Nat)
deriving DecidableEq

/-- index.rs `EnclosingIndex`: `by_file : HashMap<PathBuf, Vec<FnSpan>>`,
modelled as an association list; only keyed lookup is relied upon. -/
structure EnclosingIndex where
  by_file : List (String × List FnSpan)
deriving DecidableEq

/-- The merged fact state (klepto.rs `Klepto`).  The `files` vector and the
`crate_name` mirror the source; the cached fact collections are the data
every modelled operation reads. -/
structure Klepto where
  crate_name : String
  functions : List CapturedFn
  imports : List StolenPath
  exports : List ExportedSymbol
  macros_def : List MacroDef
  macros_inv : List MacroInvocation
  paths : List PathOccurrence
  calls : List CallOccurrence
  no_std_detected : Bool
  index : EnclosingIndex
deriving DecidableEq

/-- klepto.rs `Klepto::doc_coverage` (lines 90-95): percent is
`documented * 100.0 / total`, with the `total == 0` branch yielding
exactly `100.0`. -/
def Klepto.doc_coverage (k : Klepto) : DocCoverage :=
  let public_total := (k.functions.filter (fun f => f.is_public)).length
  let public_documented := (k.functions.filter (fun f => f.is_public && f.has_docs)).length
  let percent : ℚ :=
    if public_total = 0 then 100 else (public_documented * 100 : ℚ) / (public_total : ℚ)
  { public_total, public_documented, percent }

/-- query.rs `ImportQuery`.  The borrowed `k : &Klepto` is modelled by the
only field `collect` reads, `k.imports`.  The Rust field `full_prefix` is
rendered `full_pref`. -/
structure ImportQuery where
  imports : List StolenPath
  root : Option String := none
  internal_only : Bool := false
  public_use_only : Bool := false
  full_pref : Option String := none
  origin : Option ImportOrigin := none
  stdish_only : Bool := false

/-- query.rs `ImportQuery::new`. -/
def ImportQuery.new (imports : List StolenPath) : ImportQuery := { imports }

/-- query.rs `ImportQuery::origin` builder method (named `origin_eq` here
because the record field already claims the name `origin`): it stores the
requested origin in the query configuration. -/
def ImportQuery.origin_eq (q : ImportQuery) (o : ImportOrigin) : ImportQuery :=
  { q with origin := some o }

/-- query.rs `ImportQuery::workspace_only` preset. -/
def ImportQuery.workspace_only (q : ImportQuery) : ImportQuery :=
  q.origin_eq ImportOrigin.WorkspaceMember

/-- query.rs `ImportQuery::deps_only` preset. -/
def ImportQuery.deps_only (q : ImportQuery) : ImportQuery :=
  q.origin_eq ImportOrigin.Dependency

/-- query.rs `ImportQuery::collect` (lines 31-38), retain by retain: the
root, internal, public-use and full-path-prefix filters are applied; the
configured `origin` and `stdish_only` fields are never consulted by the
source, and accordingly do not appear here. -/
def ImportQuery.collect (q : ImportQuery) : List StolenPath :=
  let v := q.imports
  let v := match q.root with
    | some r => v.filter (fun p => p.root == r)
    | none => v
  let v := if q.internal_only then v.filter (fun p => p.is_internal) else v
  let v := if q.public_use_only then v.filter (fun p => p.is_public_use) else v
  let v := match q.full_pref with
    | some pre => v.filter (fun p => p.full_path.startsWith pre)
    | none => v
  v

/-- Prefix test on character lists (auxiliary for the substring test). -/
def charListPrefix (pat s : List Char) : Bool :=
  match pat, s with
  | [], _ => true
  | _ :: _, [] => false
  | a :: pt, b :: st => a == b && charListPrefix pt st

/-- Substring occurrence on character lists (auxiliary for `containsSub`). -/
def charListContains (s pat : List Char) : Bool :=
  charListPrefix pat s ||
  (match s with
   | [] => false
   | _ :: t => charListContains t pat)

/-- Rust `str::contains` (substring test), over the character list of the
string. -/
def containsSub (s pat : String) : Bool :=
  charListContains s.data pat.data

/-- rules/builtin.rs `UnwrapInPublicApi::run` (KLEP002, lines 47-62): one
Warn finding per call occurrence whose `enclosing_public == Some(true)`
and whose callee text contains `unwrap` or `expect` as a substring.  The
dead `pub_mods` binding of the source (computed, never read by the live
filter chain) is not modelled. -/
def unwrapInPublicApi_run (k : Klepto) : List Finding :=
  ((k.calls.filter (fun c => c.enclosing_public == some true)).filter
      (fun c => containsSub c.callee "unwrap" || containsSub c.callee "expect")).map
    (fun c =>
      { severity := Severity.Warn
        code := "KLEP002"
        message := "panic-ish call inside public fn "
          ++ c.enclosing_fn.getD "<unknown>" ++ ": " ++ c.callee
        location := c.location })

/-- index.rs `FnSpan::contains` (lines 17-28): file must match, line and
column must be present, start and end must be present; containment is
inclusive on both ends. -/
def FnSpan.contains (s : FnSpan) (loc : FileLocation) : Bool :=
  if s.file != loc.path then false
  else
    match loc.line, loc.column with
    | some line, some col =>
      match s.start, s.end_ with
      | some (sl, sc), some (el, ec) =>
        decide ((line > sl ∨ (line = sl ∧ col ≥ sc)) ∧ (line < el ∨ (line = el ∧ col ≤ ec)))
      | _, _ => false
    | _, _ => false

/-- index.rs `EnclosingIndex::enclosing` line-range size heuristic:
`end.line.unwrap_or(u32::MAX).saturating_sub(start.line.unwrap_or(0))`
(`Nat` subtraction is saturating). -/
def fnSpanExtent (f : FnSpan) : Nat :=
  ((f.end_.map Prod.fst).getD (2 ^ 32 - 1)) - ((f.start.map Prod.fst).getD 0)

/-- Rust `Iterator::min_by_key`: the first element attaining the minimal
key (strictly-smaller replacement keeps the earliest minimum). -/
def minByKeyFirst (key : FnSpan → Nat) (l : List FnSpan) : Option FnSpan :=
  l.foldl
    (fun acc x =>
      match acc with
      | none => some x
      | some a => if key x < key a then some x else acc)
    none

/-- `HashMap::get` over the association-list model of `by_file`. -/
def EnclosingIndex.getFile (idx : EnclosingIndex) (p : String) : Option (List FnSpan) :=
  (idx.by_file.find? (fun e => e.1 == p)).map Prod.snd

/-- index.rs `EnclosingIndex::enclosing` (lines 64-75): among the spans
recorded for the location's file, the containing span with minimal
line-range extent, or `none`. -/
def EnclosingIndex.enclosing (idx : EnclosingIndex) (loc : FileLocation) : Option FnSpan :=
  match idx.getFile loc.path with
  | none => none
  | some v => minByKeyFirst fnSpanExtent (v.filter (fun f => f.contains loc))

/-- snapshot.rs `FnFinger`. -/
structure FnFinger where
  fq_name : String
  sig_hash : String
  signature : String
  location : FileLocation
deriving DecidableEq

/-- snapshot.rs `ExportFinger`. -/
structure ExportFinger where
  exported_as : String
  source_path : String
  location : FileLocation
deriving DecidableEq

/-- snapshot.rs `Snapshot`. -/
structure Snapshot where
  crate_name : String
  no_std : Bool
  functions : List FnFinger
  exports : List ExportFinger
  imports : List String
deriving DecidableEq

/-- snapshot.rs `SnapshotDiff`. -/
structure SnapshotDiff where
  added_functions : List FnFinger
  removed_functions : List FnFinger
  changed_signatures : List (FnFinger × FnFinger)
  added_exports : List ExportFinger
  removed_exports : List ExportFinger
  added_imports : List String
  removed_imports : List String
deriving DecidableEq

/-- Lexicographic comparison of character lists by code point (the order
`Ord for String` realizes in Rust, where the UTF-8 byte order coincides
with code-point order). -/
def charListLt : List Char → List Char → Bool
  | [], [] => false
  | [], _ :: _ => true
  | _ :: _, [] => false
  | a :: as, b :: bs =>
    if a.toNat < b.toNat then true
    else if b.toNat < a.toNat then false
    else charListLt as bs

/-- The string order the `BTreeMap`/`BTreeSet` models sort by. -/
def strLt (a b : String) : Bool := charListLt a.data b.data

/-- `BTreeMap<String, V>` insertion into the sorted association-list model
of the map: keeps keys strictly ascending, overwrites an equal key. -/
def btInsert {α : Type} (m : List (String × α)) (k : String) (v : α) : List (String × α) :=
  match m with
  | [] => [(k, v)]
  | (k', v') :: t =>
    if strLt k k' then (k, v) :: (k', v') :: t
    else if k = k' then (k, v) :: t
    else (k', v') :: btInsert t k v

/-- The `BTreeMap` the diff builds from a finger list, keyed by fq name
(later insertions overwrite, as in the Rust loop). -/
def fnMapOf (l : List FnFinger) : List (String × FnFinger) :=
  l.foldl (fun m f => btInsert m f.fq_name f) []

/-- `BTreeMap::get` over the sorted association-list model. -/
def mapGet {α : Type} (m : List (String × α)) (k : String) : Option α :=
  match m with
  | [] => none
  | (k', v') :: t => if k = k' then some v' else mapGet t k

/-- `BTreeSet<String>` insertion into the sorted, duplicate-free list
model of the set. -/
def btSetInsert (m : List String) (s : String) : List String :=
  match m with
  | [] => [s]
  | x :: t =>
    if strLt s x then s :: x :: t
    else if s = x then x :: t
    else x :: btSetInsert t s

/-- The `BTreeSet<String>` collected from a string list (iteration order
of the set is ascending, as for `BTreeSet`). -/
def btSetOfList (l : List String) : List String :=
  l.foldl btSetInsert []

/-- snapshot.rs `hash_sig` is a blake3 content hash; the diff engine only
ever moves the digest around, so the hash is a parameter of the model
(`hashSig : String → String`), never interpreted. -/
def Snapshot.from_klepto (hashSig : String → String) (k : Klepto) : Snapshot :=
  { crate_name := k.crate_name
    no_std := k.no_std_detected
    functions := k.functions.map (fun f =>
      { fq_name := f.fq_name
        sig_hash := hashSig f.signature
        signature := f.signature
        location := f.location })
    exports := k.exports.map (fun e =>
      { exported_as := e.exported_as
        source_path := e.source_path
        location := e.location })
    imports := btSetOfList (k.imports.map (fun i => i.full_path)) }

/-- snapshot.rs `Snapshot::diff` (lines 79-138); `self` is the new run,
`old` the previous one.  The single Rust loop over `new_map` that fills
both `added_functions` and `changed_signatures` is split into the two
`filterMap`s it computes; each output list is unchanged by the split. -/
def Snapshot.diff (self_ old : Snapshot) : SnapshotDiff :=
  let old_map := fnMapOf old.functions
  let new_map := fnMapOf self_.functions
  let added_functions := new_map.filterMap (fun e =>
    match mapGet old_map e.1 with
    | none => some e.2
    | some _ => none)
  let changed_signatures := new_map.filterMap (fun e =>
    match mapGet old_map e.1 with
    | some of => if of.sig_hash != e.2.sig_hash then some (of, e.2) else none
    | none => none)
  let removed_functions := old_map.filterMap (fun e =>
    match mapGet new_map e.1 with
    | none => some e.2
    | some _ => none)
  let old_exports := old.exports.map (fun e => (e.exported_as, e.source_path))
  let new_exports := self_.exports.map (fun e => (e.exported_as, e.source_path))
  let added_exports := self_.exports.filter (fun e =>
    !(old_exports.contains (e.exported_as, e.source_path)))
  let removed_exports := old.exports.filter (fun e =>
    !(new_exports.contains (e.exported_as, e.source_path)))
  let old_imports := btSetOfList old.imports
  let new_imports := btSetOfList self_.imports
  let added_imports := new_imports.filter (fun s => !(old_imports.contains s))
  let removed_imports := old_imports.filter (fun s => !(new_imports.contains s))
  { added_functions, removed_functions, changed_signatures,
    added_exports, removed_exports, added_imports, removed_imports }

/-- Suffix test (Rust `str::ends_with`), over the character lists. -/
def endsWithSub (s suf : String) : Bool :=
  charListPrefix suf.data.reverse s.data.reverse

/-- The risky-callee predicate exactly as claim C3 words it: the callee
text equals one of the two accessor names, or ends with a member access
onto one of them. -/
def riskyCalleeClaimed (c : CallOccurrence) : Prop :=
  c.callee = "unwrap" ∨ c.callee = "expect"
    ∨ endsWithSub c.callee ".unwrap" = true ∨ endsWithSub c.callee ".expect" = true

/-- An empty fact state, the base the example states below are built on. -/
def emptyKlepto : Klepto :=
  { crate_name := "demo"
    functions := []
    imports := []
    exports := []
    macros_def := []
    macros_inv := []
    paths := []
    calls := []
    no_std_detected := false
    index := ⟨[]⟩ }

/-- A public, documented free function (example fact). -/
def fnPubDoc : CapturedFn :=
  { name := "f"
    fq_name := "demo::f"
    is_public := true
    has_docs := true
    is_async := false
    is_unsafe_ := false
    is_const := false
    is_generic := false
    args := []
    return_ty := none
    kind := FnKind.FreeFn
    module_path := []
    attrs := []
    signature := "fn f ()"
    location := ⟨"lib.rs", none, none⟩ }

/-- Fact state with one public documented function. -/
def kOneDoc : Klepto := { emptyKlepto with functions := [fnPubDoc] }

/-- Example import fact with root `std`, classified `Std`. -/
def impStdEx : StolenPath :=
  { root := "std"
    segments := ["mem"]
    module_path := []
    is_internal := false
    is_public_use := false
    kind := UseKind.Name
    full_path := "std::mem"
    location := ⟨"a.rs", none, none⟩
    origin := some ImportOrigin.Std
    is_absolute := some false }

/-- Example import fact with root `serde`, classified `Dependency`. -/
def impDepEx : StolenPath :=
  { root := "serde"
    segments := ["Serialize"]
    module_path := []
    is_internal := false
    is_public_use := false
    kind := UseKind.Name
    full_path := "serde::Serialize"
    location := ⟨"a.rs", none, none⟩
    origin := some ImportOrigin.Dependency
    is_absolute := some false }

/-- Call occurrence whose callee merely contains `unwrap` as a substring. -/
def cUnwrapOr : CallOccurrence :=
  { callee := "unwrap_or_default"
    module_path := []
    location := ⟨"a.rs", none, none⟩
    enclosing_fn := some "demo::api"
    enclosing_public := some true }

/-- Fact state with that single call occurrence. -/
def kUnwrapOr : Klepto := { emptyKlepto with calls := [cUnwrapOr] }

/-- The accumulator step of `minByKeyFirst`, named for the proofs. -/
def minStep (key : FnSpan → Nat) (acc : Option FnSpan) (x : FnSpan) : Option FnSpan :=
  match acc with
  | none => some x
  | some a => if key x < key a then some x else acc

/-- Modelled from the spec: span containment as claim C5 words it — the
location's file equals the span's file and its (line, col) lies within the
span's inclusive start and inclusive end; spans or locations lacking
position data never match. -/
def specContains (s : FnSpan) (loc : FileLocation) : Prop :=
  loc.path = s.file ∧
    ∃ line col sl sc el ec,
      loc.line = some line ∧ loc.column = some col ∧
      s.start = some (sl, sc) ∧ s.end_ = some (el, ec) ∧
      (line > sl ∨ (line = sl ∧ col ≥ sc)) ∧ (line < el ∨ (line = el ∧ col ≤ ec))

/-- The spans the index holds for a file (empty when the file is absent). -/
def EnclosingIndex.spansOf (idx : EnclosingIndex) (p : String) : List FnSpan :=
  (idx.getFile p).getD []

/-- Outer example span (lines 1-10 of lib.rs). -/
def spanOuter : FnSpan :=
  { fq_name := "demo::outer", is_public := true, kind := FnKind.FreeFn,
    file := "lib.rs", start := some (1, 0), end_ := some (10, 1) }

/-- Inner example span (lines 3-5 of lib.rs), nested in the outer one. -/
def spanInner : FnSpan :=
  { fq_name := "demo::inner", is_public := false, kind := FnKind.FreeFn,
    file := "lib.rs", start := some (3, 4), end_ := some (5, 1) }

/-- Example index holding both spans for lib.rs. -/
def idxEx : EnclosingIndex := ⟨[("lib.rs", [spanOuter, spanInner])]⟩

/-- Example location inside both spans. -/
def locEx : FileLocation := ⟨"lib.rs", some 4, some 2⟩

/-- Strictly ascending keys: the invariant of the `BTreeMap` model. -/
def SortedKeys {α : Type} (m : List (String × α)) : Prop :=
  m.Pairwise (fun a b => strLt a.1 b.1 = true)

/-- Projection of a finger map onto (key, signature hash). -/
def hashProj (m : List (String × FnFinger)) : List (String × String) :=
  m.map (fun e => (e.1, e.2.sig_hash))

/-- Example old-run finger of `demo::f`. -/
def fgOld : FnFinger :=
  { fq_name := "demo::f", sig_hash := "hash-one",
    signature := "fn f () -> u8", location := ⟨"lib.rs", none, none⟩ }

/-- Example new-run finger of `demo::f` with a changed signature hash. -/
def fgNew : FnFinger :=
  { fq_name := "demo::f", sig_hash := "hash-two",
    signature := "fn f () -> u16", location := ⟨"lib.rs", none, none⟩ }

/-- Example finger present only in the new run. -/
def fgG : FnFinger :=
  { fq_name := "demo::g", sig_hash := "hash-g",
    signature := "fn g ()", location := ⟨"lib.rs", none, none⟩ }

/-- Old example snapshot. -/
def snapOld : Snapshot :=
  { crate_name := "demo", no_std := false, functions := [fgOld], exports := [], imports := [] }

/-- New example snapshot. -/
def snapNew : Snapshot :=
  { crate_name := "demo", no_std := false, functions := [fgNew, fgG], exports := [], imports := [] }

/-- The one-documented-function state with only its location moved. -/
def kOneDocMoved : Klepto :=
  { emptyKlepto with
    functions := [{ fnPubDoc with location := ⟨"lib.rs", some 10, some 0⟩ }] }

/-- The common-key pairing used by the diff symmetry argument: old value
from the first map, new value from the second, kept when hashes differ. -/
def chgPair (mA mB : List (String × FnFinger)) (k : String) :
    Option (FnFinger × FnFinger) :=
  (mapGet mA k).bind (fun a =>
    (mapGet mB k).bind (fun b =>
      if a.sig_hash != b.sig_hash then some (a, b) else none))

/-- syn `UseTree`: the five shapes an import declaration tree is built
from (`Path`, `Group`, `Name`, `Glob`, `Rename`); the extractor's
wildcard arm never fires because these are all the variants. -/
inductive UseTree where
  | path (ident : String) (tree : UseTree)
  | group (items : List UseTree)
  | name (ident : String)
  | glob
  | rename (ident : String) (alias_ : String)

/-- The syntax-tree shapes the extractors dispatch on, one constructor
per syn node kind the source handles: inline modules, trait definitions,
impl blocks, the three function-like items (`ItemFn`, `TraitItemFn`,
`ImplItemFn`, with their statement bodies), `ItemMacro`, `ItemUse`, and
the expression shapes that produce occurrence facts (`ExprCall` with its
rendered callee text and visited children, `ExprMethodCall`, `ExprMacro`
carrying its path segments, and a path reference).  The impl block
carries the already-rendered last segment of its self type and its
optional trait path, mirroring what `visit_item_impl` computes.  Spans
are modelled as absent (the build without the `span-locations` feature),
so every recorded location is `(file, none, none)`. -/
inductive Node where
  | modI (name : String) (content : Option (List Node))
  | traitI (name : String) (items : List Node)
  | implI (selfTyLast : String) (traitPath : Option (List String)) (items : List Node)
  | fnI (isPub : Bool) (name : String) (body : List Node)
  | tfnI (name : String) (body : List Node)
  | ifnI (isPub : Bool) (name : String) (body : List Node)
  | macI (ident : Option String) (macSegs : List String)
  | useI (isPub : Bool) (leadingColon : Bool) (tree : UseTree)
  | callE (calleeText : String) (sub : List Node)
  | methodCallE (method : String) (sub : List Node)
  | macE (segs : List String)
  | pathE (segs : List String)

/-- The location every fact records in the span-less build. -/
def noLoc (fp : String) : FileLocation := ⟨fp, none, none⟩

/-- extract.rs `extract_imports`'s inner `emit` (lines 305-346): empty
segment lists are dropped; otherwise the head becomes the root, the rest
the segments, internality is `root ∈ {crate, self, super}`, the full path
joins the segments (prefixed `::` when the declaration was absolute), and
`origin` starts out `None` (classified later in `KleptoBuilder::parse`). -/
def impEmit (file_path : String) (module_path : List String) (segs : List String)
    (is_public_use is_absolute : Bool) (kind : UseKind) : List StolenPath :=
  match segs with
  | [] => []
  | root :: rest =>
    let is_internal := root == "crate" || root == "self" || root == "super"
    let base := if rest.isEmpty then root else root ++ "::" ++ String.intercalate "::" rest
    let full_path := if is_absolute then "::" ++ base else base
    [{ root := root
       segments := rest
       module_path := module_path
       is_internal := is_internal
       is_public_use := is_public_use
       kind := kind
       full_path := full_path
       location := noLoc file_path
       origin := none
       is_absolute := some is_absolute }]

mutual
/-- extract.rs `extract_imports`'s `walk_tree` (lines 348-452): flatten
the use tree, accumulating the path prefix; a bare `self` leaf is
flattened without appending a segment. -/
def walk_tree (file_path : String) (module_path : List String) (tree : UseTree)
    (pfx : List String) (is_public_use is_absolute : Bool) : List StolenPath :=
  match tree with
  | .path ident t =>
    walk_tree file_path module_path t (pfx ++ [ident]) is_public_use is_absolute
  | .group items =>
    walk_trees file_path module_path items pfx is_public_use is_absolute
  | .name ident =>
    if ident == "self" then
      impEmit file_path module_path pfx is_public_use is_absolute UseKind.Name
    else
      impEmit file_path module_path (pfx ++ [ident]) is_public_use is_absolute UseKind.Name
  | .glob =>
    impEmit file_path module_path (pfx ++ ["*"]) is_public_use is_absolute UseKind.Glob
  | .rename ident al =>
    impEmit file_path module_path (pfx ++ [ident]) is_public_use is_absolute
      (UseKind.Rename al)

/-- Group members are flattened in order, sharing the prefix. -/
def walk_trees (file_path : String) (module_path : List String) (items : List UseTree)
    (pfx : List String) (is_public_use is_absolute : Bool) : List StolenPath :=
  match items with
  | [] => []
  | t :: ts =>
    walk_tree file_path module_path t pfx is_public_use is_absolute
      ++ walk_trees file_path module_path ts pfx is_public_use is_absolute
end

mutual
/-- extract.rs `extract_imports`'s `walk_items` (lines 454-477): use
declarations are flattened with the current module stack; inline modules
with content recurse with the module name pushed; every other item is
skipped. -/
def impWalkItem (file_path : String) (mod_stack : List String) : Node → List StolenPath
  | .useI isPub leading tree => walk_tree file_path mod_stack tree [] isPub leading
  | .modI name (some inner) => impWalkItems file_path (mod_stack ++ [name]) inner
  | _ => []

/-- Sequential walk over an item list. -/
def impWalkItems (file_path : String) (mod_stack : List String) : List Node → List StolenPath
  | [] => []
  | n :: ns => impWalkItem file_path mod_stack n ++ impWalkItems file_path mod_stack ns
end

/-- extract.rs `extract_imports` (lines 278-503): walk the file's items
with an initially empty module stack. -/
def extract_imports (file_path : String) (ast : List Node) : List StolenPath :=
  impWalkItems file_path [] ast

/-- Scenario D input: `use foo::{bar, baz as qux, *};`. -/
def scenarioD : Node :=
  Node.useI false false (UseTree.path "foo"
    (UseTree.group [UseTree.name "bar", UseTree.rename "baz" "qux", UseTree.glob]))

/-- klepto.rs `norm_crate_root`: hyphens become underscores. -/
def norm_crate_root (s : String) : String :=
  ⟨s.data.map (fun c => if c = '-' then '_' else c)⟩

/-- klepto.rs `classify_imports` (lines 414-439): assign each import
exactly one origin from its (normalized) root; the two externally
supplied `HashSet<String>`s are modelled as lists queried by membership. -/
def classify_imports (imports : List StolenPath)
    (workspace_members dependency_crates : List String) : List StolenPath :=
  imports.map (fun imp =>
    let root := norm_crate_root imp.root
    let origin :=
      if imp.is_internal then ImportOrigin.Internal
      else if root == "std" then ImportOrigin.Std
      else if root == "core" then ImportOrigin.Core
      else if root == "alloc" then ImportOrigin.Alloc
      else if workspace_members.contains root then ImportOrigin.WorkspaceMember
      else if dependency_crates.contains root then ImportOrigin.Dependency
      else ImportOrigin.UnknownExternal
    { imp with origin := some origin })

/-- klepto.rs `ParsedFile`, reduced to the fields the modelled pipeline
reads (raw source text and modification time are never consulted by the
extraction stage). -/
structure ParsedUnit where
  path : String
  ast : List Node
  is_no_std_crate_root : Bool

/-- The import dataflow of `KleptoBuilder::parse` (klepto.rs lines
317-362), exactly in source order: the imports vector starts empty,
`classify_imports` is invoked on it (line 336) before the per-file
extraction loop (lines 349-362) extends it with each file's extracted
imports. -/
def parse_imports (files : List ParsedUnit)
    (workspace_members dependency_crates : List String) : List StolenPath :=
  let imports : List StolenPath := []
  let imports := classify_imports imports workspace_members dependency_crates
  files.foldl (fun acc pf => acc ++ extract_imports pf.path pf.ast) imports

/-- A file whose only item is `use std::mem;`. -/
def fileStdMem : ParsedUnit :=
  { path := "lib.rs"
    ast := [Node.useI false false (UseTree.path "std" (UseTree.name "mem"))]
    is_no_std_crate_root := false }

/-- extract.rs / index.rs `fq_name`: crate id, module path, the trait or
self-type qualifier the kind carries, then the name, joined by `::`. -/
def fq_name (crate_name : String) (module_path : List String) (kind : FnKind)
    (name : String) : String :=
  String.intercalate "::"
    (crate_name :: module_path ++
      (match kind with
       | FnKind.FreeFn => [name]
       | FnKind.TraitMethod trait_name => [trait_name, name]
       | FnKind.ImplMethod self_ty _ => [self_ty, name]))

/-- The traversal context of `extract_occurrences`'s visitor `V`
(extract.rs lines 775-795), grouping its context fields: module stack,
impl/trait context, and the current enclosing function. -/
structure Ctx where
  mod_stack : List String
  impl_self_ty : Option String
  impl_trait_ty : Option String
  in_trait : Option String
  current_fn : Option String
  current_fn_is_public : Option Bool

/-- The visitor's four output vectors. -/
structure Occs where
  macros_def : List MacroDef
  macros_inv : List MacroInvocation
  paths : List PathOccurrence
  calls : List CallOccurrence
deriving DecidableEq

/-- No output yet. -/
def Occs.empty : Occs := ⟨[], [], [], []⟩

/-- Concatenate outputs componentwise (the order facts are pushed). -/
def Occs.app (a b : Occs) : Occs :=
  ⟨a.macros_def ++ b.macros_def, a.macros_inv ++ b.macros_inv,
    a.paths ++ b.paths, a.calls ++ b.calls⟩

/-- The visitor state: context fields plus accumulated outputs. -/
structure VState where
  ctx : Ctx
  outs : Occs

/-- Append freshly recorded facts to the state. -/
def VState.addOccs (v : VState) (o : Occs) : VState :=
  { v with outs := v.outs.app o }

/-- extract.rs `visit_path` (lines 1020-1046): record the joined path if
it is multi-segment or one of the six allow-listed single segments; the
enclosing-function annotation is the current context. -/
def pathVisitOccs (fp : String) (c : Ctx) (segs : List String) : Occs :=
  let s := String.intercalate "::" segs
  let keep := containsSub s "::" ||
    (s == "std" || s == "core" || s == "alloc" || s == "crate" || s == "self" || s == "super")
  if keep then
    ⟨[], [], [⟨s, c.mod_stack, noLoc fp, c.current_fn, c.current_fn_is_public⟩], []⟩
  else
    Occs.empty

/-- The macro fact `visit_item_macro`/`visit_expr_macro` push: name is
the last path segment, path the joined segments when non-empty, and the
enclosing annotations come from the context. -/
def macInvOcc (fp : String) (c : Ctx) (segs : List String) : MacroInvocation :=
  ⟨(segs.getLast?).getD "<macro>", c.mod_stack,
    (if segs.isEmpty then none else some (String.intercalate "::" segs)),
    noLoc fp, c.current_fn, c.current_fn_is_public⟩

/-- The function context a `visit_item_fn` computes: trait-method kind
and forced-public inside a trait, else a free function with its own
visibility. -/
def itemFnCtx (cr : String) (c : Ctx) (isPub : Bool) (name : String) :
    String × Bool :=
  match c.in_trait with
  | some tr => (fq_name cr c.mod_stack (FnKind.TraitMethod tr) name, true)
  | none => (fq_name cr c.mod_stack FnKind.FreeFn name, isPub)

mutual
/-- The context-aware occurrence visitor (extract.rs lines 763-1078),
state-passing rendition of `impl Visit for V`: every `visit_*` method's
field mutation, save/restore discipline and fact push is mirrored; the
default-descent of each syn visit function is the recursion into the
node's children (for macros, the descent into the macro's own path). -/
def visitNode (cr fp : String) (v : VState) : Node → VState
  | .modI _ none => v
  | .modI name (some items) =>
    let v1 := { v with ctx := { v.ctx with mod_stack := v.ctx.mod_stack ++ [name] } }
    let v2 := visitNodes cr fp v1 items
    { v2 with ctx := { v2.ctx with mod_stack := v2.ctx.mod_stack.dropLast } }
  | .traitI name items =>
    let prev := v.ctx.in_trait
    let v1 := { v with ctx := { v.ctx with in_trait := some name } }
    let v2 := visitNodes cr fp v1 items
    { v2 with ctx := { v2.ctx with in_trait := prev } }
  | .implI selfTy traitPath items =>
    let prev_self := v.ctx.impl_self_ty
    let prev_trait := v.ctx.impl_trait_ty
    let v1 := { v with ctx := { v.ctx with
      impl_self_ty := some selfTy
      impl_trait_ty := traitPath.map (String.intercalate "::") } }
    let v2 := visitNodes cr fp v1 items
    { v2 with ctx := { v2.ctx with impl_self_ty := prev_self, impl_trait_ty := prev_trait } }
  | .fnI isPub name body =>
    let fc := itemFnCtx cr v.ctx isPub name
    let prev_fn := v.ctx.current_fn
    let prev_pub := v.ctx.current_fn_is_public
    let v1 := { v with ctx := { v.ctx with
      current_fn := some fc.1, current_fn_is_public := some fc.2 } }
    let v2 := visitNodes cr fp v1 body
    { v2 with ctx := { v2.ctx with current_fn := prev_fn, current_fn_is_public := prev_pub } }
  | .tfnI name body =>
    let tr := v.ctx.in_trait.getD "<trait>"
    let fq := fq_name cr v.ctx.mod_stack (FnKind.TraitMethod tr) name
    let prev_fn := v.ctx.current_fn
    let prev_pub := v.ctx.current_fn_is_public
    let v1 := { v with ctx := { v.ctx with
      current_fn := some fq, current_fn_is_public := some true } }
    let v2 := visitNodes cr fp v1 body
    { v2 with ctx := { v2.ctx with current_fn := prev_fn, current_fn_is_public := prev_pub } }
  | .ifnI isPub name body =>
    let self_ty := v.ctx.impl_self_ty.getD "<impl>"
    let trait_ty := v.ctx.impl_trait_ty
    let fq := fq_name cr v.ctx.mod_stack (FnKind.ImplMethod self_ty trait_ty) name
    let prev_fn := v.ctx.current_fn
    let prev_pub := v.ctx.current_fn_is_public
    let v1 := { v with ctx := { v.ctx with
      current_fn := some fq, current_fn_is_public := some isPub } }
    let v2 := visitNodes cr fp v1 body
    { v2 with ctx := { v2.ctx with current_fn := prev_fn, current_fn_is_public := prev_pub } }
  | .macI ident segs =>
    let v1 :=
      if segs == ["macro_rules"] then
        v.addOccs ⟨[⟨ident.getD "<macro>", v.ctx.mod_stack, noLoc fp⟩], [], [], []⟩
      else
        v.addOccs ⟨[], [macInvOcc fp v.ctx segs], [], []⟩
    v1.addOccs (pathVisitOccs fp v1.ctx segs)
  | .useI _ _ _ => v
  | .callE calleeText sub =>
    let v1 := v.addOccs ⟨[], [], [],
      [⟨calleeText, v.ctx.mod_stack, noLoc fp, v.ctx.current_fn, v.ctx.current_fn_is_public⟩]⟩
    visitNodes cr fp v1 sub
  | .methodCallE m sub =>
    let v1 := v.addOccs ⟨[], [], [],
      [⟨m, v.ctx.mod_stack, noLoc fp, v.ctx.current_fn, v.ctx.current_fn_is_public⟩]⟩
    visitNodes cr fp v1 sub
  | .macE segs =>
    let v1 := v.addOccs ⟨[], [macInvOcc fp v.ctx segs], [], []⟩
    v1.addOccs (pathVisitOccs fp v1.ctx segs)
  | .pathE segs => v.addOccs (pathVisitOccs fp v.ctx segs)

/-- Visit a sequence of children left to right. -/
def visitNodes (cr fp : String) (v : VState) : List Node → VState
  | [] => v
  | n :: ns => visitNodes cr fp (visitNode cr fp v n) ns
end

/-- extract.rs `extract_occurrences` top level: visit the file from the
initial (module-scope) context and return the four fact vectors. -/
def extract_occurrences (crate_name file_path : String) (ast : List Node) : Occs :=
  (visitNodes crate_name file_path ⟨⟨[], none, none, none, none, none⟩, Occs.empty⟩ ast).outs

mutual
/-- Modelled from the spec: the reference annotator for claim C6.  The
context — in particular the innermost enclosing function's fq name and
computed visibility — is passed down immutably: entering a function-like
node replaces the function context by that function's own (fq,
visibility) pair for exactly its body, and at module scope the function
context is `none`.  Every recorded occurrence is annotated with the
context at its position. -/
def specNode (cr fp : String) (c : Ctx) : Node → Occs
  | .modI _ none => Occs.empty
  | .modI name (some items) =>
    specNodes cr fp { c with mod_stack := c.mod_stack ++ [name] } items
  | .traitI name items => specNodes cr fp { c with in_trait := some name } items
  | .implI selfTy traitPath items =>
    specNodes cr fp { c with
      impl_self_ty := some selfTy
      impl_trait_ty := traitPath.map (String.intercalate "::") } items
  | .fnI isPub name body =>
    let fc := itemFnCtx cr c isPub name
    specNodes cr fp { c with current_fn := some fc.1, current_fn_is_public := some fc.2 } body
  | .tfnI name body =>
    let tr := c.in_trait.getD "<trait>"
    let fq := fq_name cr c.mod_stack (FnKind.TraitMethod tr) name
    specNodes cr fp { c with current_fn := some fq, current_fn_is_public := some true } body
  | .ifnI isPub name body =>
    let self_ty := c.impl_self_ty.getD "<impl>"
    let trait_ty := c.impl_trait_ty
    let fq := fq_name cr c.mod_stack (FnKind.ImplMethod self_ty trait_ty) name
    specNodes cr fp { c with current_fn := some fq, current_fn_is_public := some isPub } body
  | .macI ident segs =>
    Occs.app
      (if segs == ["macro_rules"] then
        ⟨[⟨ident.getD "<macro>", c.mod_stack, noLoc fp⟩], [], [], []⟩
      else
        ⟨[], [macInvOcc fp c segs], [], []⟩)
      (pathVisitOccs fp c segs)
  | .useI _ _ _ => Occs.empty
  | .callE calleeText sub =>
    Occs.app
      ⟨[], [], [], [⟨calleeText, c.mod_stack, noLoc fp, c.current_fn, c.current_fn_is_public⟩]⟩
      (specNodes cr fp c sub)
  | .methodCallE m sub =>
    Occs.app
      ⟨[], [], [], [⟨m, c.mod_stack, noLoc fp, c.current_fn, c.current_fn_is_public⟩]⟩
      (specNodes cr fp c sub)
  | .macE segs =>
    Occs.app ⟨[], [macInvOcc fp c segs], [], []⟩ (pathVisitOccs fp c segs)
  | .pathE segs => pathVisitOccs fp c segs

/-- Reference annotation of a node sequence. -/
def specNodes (cr fp : String) (c : Ctx) : List Node → Occs
  | [] => Occs.empty
  | n :: ns => Occs.app (specNode cr fp c n) (specNodes cr fp c ns)
end

/-- Modelled from the spec: reference extraction of a whole file — the
module-scope context has no enclosing function. -/
def specOccurrences (crate_name file_path : String) (ast : List Node) : Occs :=
  specNodes crate_name file_path ⟨[], none, none, none, none, none⟩ ast

/-- A small unit: module `m` with a public function whose body calls
`.unwrap()`, followed by a module-scope path reference `std::mem`. -/
def demoAst : List Node :=
  [Node.modI "m" (some
    [Node.fnI true "api" [Node.methodCallE "unwrap" []],
     Node.pathE ["std", "mem"]])]

/-- `charListLt` is irreflexive. -/
theorem charListLt_irrefl : ∀ l, charListLt l l = false := by
  intro l
  induction l with
  | nil => rfl
  | cons a as ih => simp [charListLt, ih]

/-- `charListLt` is asymmetric. -/
theorem charListLt_asymm : ∀ {l₁ l₂}, charListLt l₁ l₂ = true → charListLt l₂ l₁ = false := by
  intro l₁
  induction l₁ with
  | nil =>
    intro l₂ h
    cases l₂ with
    | nil => simp [charListLt] at h
    | cons b bs => rfl
  | cons a as ih =>
    intro l₂ h
    cases l₂ with
    | nil => simp [charListLt] at h
    | cons b bs =>
      by_cases hab : a.toNat < b.toNat
      · have hba : ¬ b.toNat < a.toNat := Nat.lt_asymm hab
        simp [charListLt, hba, hab]
      · by_cases hba : b.toNat < a.toNat
        · rw [charListLt, if_neg hab, if_pos hba] at h
          cases h
        · rw [charListLt, if_neg hab, if_neg hba] at h
          rw [charListLt, if_neg hba, if_neg hab]
          exact ih h

/-- `charListLt` is transitive. -/
theorem charListLt_trans :
    ∀ {l₁ l₂ l₃}, charListLt l₁ l₂ = true → charListLt l₂ l₃ = true →
      charListLt l₁ l₃ = true := by
  intro l₁
  induction l₁ with
  | nil =>
    intro l₂ l₃ h12 h23
    cases l₂ with
    | nil => simp [charListLt] at h12
    | cons b bs =>
      cases l₃ with
      | nil => simp [charListLt] at h23
      | cons c cs => rfl
  | cons a as ih =>
    intro l₂ l₃ h12 h23
    cases l₂ with
    | nil => simp [charListLt] at h12
    | cons b bs =>
      cases l₃ with
      | nil => simp [charListLt] at h23
      | cons c cs =>
        rw [charListLt] at h12 h23 ⊢
        by_cases hab : a.toNat < b.toNat
        · by_cases hbc : b.toNat < c.toNat
          · rw [if_pos (Nat.lt_trans hab hbc)]
          · by_cases hcb : c.toNat < b.toNat
            · rw [if_neg hbc, if_pos hcb] at h23
              cases h23
            · have hbceq : b.toNat = c.toNat := Nat.le_antisymm
                (Nat.le_of_not_lt hcb) (Nat.le_of_not_lt hbc)
              rw [if_pos (hbceq ▸ hab)]
        · by_cases hba : b.toNat < a.toNat
          · rw [if_neg hab, if_pos hba] at h12
            cases h12
          · have habeq : a.toNat = b.toNat := Nat.le_antisymm
              (Nat.le_of_not_lt hba) (Nat.le_of_not_lt hab)
            rw [if_neg hab, if_neg hba] at h12
            by_cases hbc : b.toNat < c.toNat
            · rw [if_pos (habeq ▸ hbc)]
            · by_cases hcb : c.toNat < b.toNat
              · rw [if_neg hbc, if_pos hcb] at h23
                cases h23
              · rw [if_neg hbc, if_neg hcb] at h23
                have h1' : ¬ a.toNat < c.toNat := by rw [habeq]; exact hbc
                have h2' : ¬ c.toNat < a.toNat := by rw [habeq]; exact hcb
                rw [if_neg h1', if_neg h2']
                exact ih h12 h23

/-- Character lists that compare unordered in both directions are equal. -/
theorem charListLt_conn :
    ∀ {l₁ l₂}, charListLt l₁ l₂ ≠ true → charListLt l₂ l₁ ≠ true → l₁ = l₂ := by
  intro l₁
  induction l₁ with
  | nil =>
    intro l₂ h12 h21
    cases l₂ with
    | nil => rfl
    | cons b bs => exact absurd rfl h12
  | cons a as ih =>
    intro l₂ h12 h21
    cases l₂ with
    | nil => exact absurd rfl h21
    | cons b bs =>
      rw [charListLt] at h12 h21
      by_cases hab : a.toNat < b.toNat
      · rw [if_pos hab] at h12
        exact absurd rfl h12
      · by_cases hba : b.toNat < a.toNat
        · rw [if_neg (Nat.lt_asymm hba), if_pos hba] at h21
          exact absurd rfl h21
        · rw [if_neg hab, if_neg hba] at h12
          rw [if_neg hba, if_neg hab] at h21
          have hch : a = b := by
            apply Char.ext
            apply UInt32.ext
            exact Nat.le_antisymm (Nat.le_of_not_lt hba) (Nat.le_of_not_lt hab)
          rw [hch, ih h12 h21]

/-- `strLt` is irreflexive. -/
theorem strLt_irrefl (a : String) : strLt a a = false := charListLt_irrefl a.data

/-- `strLt` is asymmetric. -/
theorem strLt_asymm {a b : String} (h : strLt a b = true) : strLt b a = false :=
  charListLt_asymm h

/-- `strLt` is transitive. -/
theorem strLt_trans {a b c : String} (h1 : strLt a b = true) (h2 : strLt b c = true) :
    strLt a c = true := charListLt_trans h1 h2

/-- Strings unordered in both directions are equal. -/
theorem strLt_conn {a b : String} (h1 : strLt a b ≠ true) (h2 : strLt b a ≠ true) :
    a = b := by
  have hd : a.data = b.data := charListLt_conn h1 h2
  cases a
  cases b
  simp only at hd
  rw [hd]

/-- `strLt` implies inequality. -/
theorem strLt_ne {a b : String} (h : strLt a b = true) : a ≠ b := by
  intro hab
  subst hab
  rw [strLt_irrefl a] at h
  cases h

/-- C8 counterexample: with one public documented function the computed
percent is exactly 100 while `public_total = 1 ≠ 0`, so "percent equals
exactly 100.0 iff public_total = 0" fails in the only-if direction. -/
theorem doc_coverage_hundred_with_public_total_one :
    (Klepto.doc_coverage kOneDoc).percent = 100 ∧
      (Klepto.doc_coverage kOneDoc).public_total ≠ 0 := by
  constructor
  · norm_num [Klepto.doc_coverage, kOneDoc, emptyKlepto, fnPubDoc]
  · decide

/-- C8 as amended: percent is `documented × 100 / total` whenever the
public total is nonzero, is exactly 100 when the public total is zero,
and equals exactly 100 iff the public total is zero or every public
function is documented. -/
theorem doc_coverage_percent_characterization (k : Klepto) :
    ((k.doc_coverage).public_total = 0 → (k.doc_coverage).percent = 100)
    ∧ ((k.doc_coverage).public_total ≠ 0 →
        (k.doc_coverage).percent =
          ((k.doc_coverage).public_documented * 100 : ℚ) / ((k.doc_coverage).public_total : ℚ))
    ∧ ((k.doc_coverage).percent = 100 ↔
        (k.doc_coverage).public_total = 0
          ∨ (k.doc_coverage).public_documented = (k.doc_coverage).public_total) := by
  have hp : (k.doc_coverage).percent
      = (if (k.doc_coverage).public_total = 0 then (100 : ℚ)
         else ((k.doc_coverage).public_documented * 100 : ℚ)
                / ((k.doc_coverage).public_total : ℚ)) := rfl
  refine ⟨?_, ?_, ?_⟩
  · intro h0; rw [hp, if_pos h0]
  · intro h0; rw [hp, if_neg h0]
  · rw [hp]
    by_cases h0 : (k.doc_coverage).public_total = 0
    · simp [h0]
    · rw [if_neg h0]
      have htQ : ((k.doc_coverage).public_total : ℚ) ≠ 0 := Nat.cast_ne_zero.mpr h0
      rw [div_eq_iff htQ]
      constructor
      · intro he
        refine Or.inr ?_
        have h2 : ((k.doc_coverage).public_documented : ℚ) * 100
            = ((k.doc_coverage).public_total : ℚ) * 100 := by rw [he]; ring
        exact_mod_cast mul_right_cancel₀ (by norm_num : (100 : ℚ) ≠ 0) h2
      · rintro (hc | hc)
        · exact absurd hc h0
        · rw [hc]; ring

/-- C8 amended-claim witness at the one-documented-function state. -/
theorem doc_coverage_percent_characterization_witness :
    (Klepto.doc_coverage kOneDoc).percent = 100 :=
  (doc_coverage_percent_characterization kOneDoc).2.2.mpr (Or.inr (by decide))

/-- C2 code-bug evidence: the dependency-only preset stores the origin
filter but `collect` never consults it, so a query for Dependency imports
returns the Std-classified import as well. -/
theorem origin_filter_not_applied_in_collect :
    (ImportQuery.deps_only (ImportQuery.new [impStdEx, impDepEx])).collect
        = [impStdEx, impDepEx]
      ∧ impStdEx.origin ≠ some ImportOrigin.Dependency :=
  ⟨rfl, by decide⟩

/-- C3 counterexample: KLEP002 emits a finding for a public-context call
whose callee (`unwrap_or_default`) neither equals `unwrap`/`expect` nor
ends with `.unwrap`/`.expect`, because the source tests substring
containment. -/
theorem klep002_flags_substring_callee :
    (unwrapInPublicApi_run kUnwrapOr).length = 1 ∧ ¬ riskyCalleeClaimed cUnwrapOr := by
  constructor
  · rfl
  · unfold riskyCalleeClaimed
    decide

/-- C3 as amended: KLEP002 emits exactly one Warn finding per call
occurrence whose `enclosing_public` is `Some(true)` and whose callee text
contains `unwrap` or `expect` as a substring, and no finding for any
other call occurrence. -/
theorem klep002_findings_characterization (k : Klepto) :
    unwrapInPublicApi_run k =
      (k.calls.filter (fun c =>
        c.enclosing_public == some true
          && (containsSub c.callee "unwrap" || containsSub c.callee "expect"))).map
        (fun c =>
          { severity := Severity.Warn
            code := "KLEP002"
            message := "panic-ish call inside public fn "
              ++ c.enclosing_fn.getD "<unknown>" ++ ": " ++ c.callee
            location := c.location }) := by
  unfold unwrapInPublicApi_run
  simp [List.filter_filter, Bool.and_comm]

/-- Folding `minStep` from a `some` accumulator yields an element of the
list or the accumulator, with key at most every candidate's. -/
theorem minFold_acc_spec (key : FnSpan → Nat) :
    ∀ (l : List FnSpan) (a r : FnSpan),
      l.foldl (minStep key) (some a) = some r →
      (r = a ∨ r ∈ l) ∧ key r ≤ key a ∧ ∀ x ∈ l, key r ≤ key x := by
  intro l
  induction l with
  | nil =>
    intro a r h
    simp only [List.foldl_nil, Option.some.injEq] at h
    subst h
    exact ⟨Or.inl rfl, le_refl _, by simp⟩
  | cons x t ih =>
    intro a r h
    simp only [List.foldl_cons, minStep] at h
    by_cases hx : key x < key a
    · rw [if_pos hx] at h
      obtain ⟨hmem, hle, hall⟩ := ih x r h
      refine ⟨Or.inr ?_, le_of_lt (lt_of_le_of_lt hle hx), ?_⟩
      · rcases hmem with h1 | h1
        · exact h1 ▸ List.mem_cons_self x t
        · exact List.mem_cons_of_mem x h1
      · intro y hy
        rcases List.mem_cons.mp hy with h1 | h1
        · exact h1 ▸ hle
        · exact hall y h1
    · rw [if_neg hx] at h
      obtain ⟨hmem, hle, hall⟩ := ih a r h
      refine ⟨?_, hle, ?_⟩
      · rcases hmem with h1 | h1
        · exact Or.inl h1
        · exact Or.inr (List.mem_cons_of_mem x h1)
      · intro y hy
        rcases List.mem_cons.mp hy with h1 | h1
        · exact h1 ▸ le_trans hle (le_of_not_lt hx)
        · exact hall y h1

/-- Folding `minStep` from a `some` accumulator never yields `none`. -/
theorem minFold_acc_ne_none (key : FnSpan → Nat) :
    ∀ (l : List FnSpan) (a : FnSpan), l.foldl (minStep key) (some a) ≠ none := by
  intro l
  induction l with
  | nil => intro a h; simp at h
  | cons x t ih =>
    intro a h
    simp only [List.foldl_cons, minStep] at h
    by_cases hx : key x < key a
    · rw [if_pos hx] at h; exact ih x h
    · rw [if_neg hx] at h; exact ih a h

/-- `minByKeyFirst` returns a member of minimal key. -/
theorem minByKeyFirst_spec (key : FnSpan → Nat) (l : List FnSpan) (r : FnSpan)
    (h : minByKeyFirst key l = some r) : r ∈ l ∧ ∀ x ∈ l, key r ≤ key x := by
  cases l with
  | nil => simp [minByKeyFirst] at h
  | cons x t =>
    have h' : t.foldl (minStep key) (some x) = some r := by
      simpa [minByKeyFirst, minStep] using h
    obtain ⟨hmem, hle, hall⟩ := minFold_acc_spec key t x r h'
    refine ⟨?_, ?_⟩
    · rcases hmem with h1 | h1
      · exact h1 ▸ List.mem_cons_self x t
      · exact List.mem_cons_of_mem x h1
    · intro y hy
      rcases List.mem_cons.mp hy with h1 | h1
      · exact h1 ▸ hle
      · exact hall y h1

/-- `minByKeyFirst` yields `none` only on the empty list. -/
theorem minByKeyFirst_none (key : FnSpan → Nat) (l : List FnSpan)
    (h : minByKeyFirst key l = none) : l = [] := by
  cases l with
  | nil => rfl
  | cons x t =>
    exfalso
    have h' : t.foldl (minStep key) (some x) = none := by
      simpa [minByKeyFirst, minStep] using h
    exact minFold_acc_ne_none key t x h'

/-- C5: span containment is exactly file-equality plus inclusive
positional bracketing (absent position data never matches), and the
enclosing lookup returns a containing span of minimal line-range extent,
or `none` exactly when no recorded span contains the location. -/
theorem span_containment_and_minimal_enclosing :
    (∀ (s : FnSpan) (loc : FileLocation), s.contains loc = true ↔ specContains s loc)
    ∧ ∀ (idx : EnclosingIndex) (loc : FileLocation),
        (∀ r, idx.enclosing loc = some r →
          r.contains loc = true ∧
            ∀ s ∈ idx.spansOf loc.path, s.contains loc = true →
              fnSpanExtent r ≤ fnSpanExtent s)
        ∧ (idx.enclosing loc = none →
            ∀ s ∈ idx.spansOf loc.path, s.contains loc = false) := by
  constructor
  · intro s loc
    obtain ⟨p, oline, ocol⟩ := loc
    obtain ⟨fq, pub, kind, file, ost, oen⟩ := s
    by_cases hfp : file = p
    · subst hfp
      cases oline with
      | none => simp [FnSpan.contains, specContains]
      | some line =>
        cases ocol with
        | none => simp [FnSpan.contains, specContains]
        | some col =>
          cases ost with
          | none => simp [FnSpan.contains, specContains]
          | some st =>
            cases oen with
            | none => simp [FnSpan.contains, specContains]
            | some en =>
              obtain ⟨sl, sc⟩ := st
              obtain ⟨el, ec⟩ := en
              simp [FnSpan.contains, specContains]
              constructor
              · intro hh
                exact ⟨sl, sc, ⟨rfl, rfl⟩, el, ec, ⟨rfl, rfl⟩, hh⟩
              · rintro ⟨x, x1, ⟨rfl, rfl⟩, x2, x3, ⟨rfl, rfl⟩, hh⟩
                exact hh
    · have hb : ((FnSpan.mk fq pub kind file ost oen).contains ⟨p, oline, ocol⟩) = false := by
        unfold FnSpan.contains
        rw [if_pos (bne_iff_ne.mpr hfp)]
      rw [hb]
      simp only [Bool.false_eq_true, specContains, false_iff, not_and]
      intro hpf
      exact absurd hpf.symm hfp
  · intro idx loc
    unfold EnclosingIndex.enclosing
    cases hget : idx.getFile loc.path with
    | none =>
      constructor
      · intro r hr; simp at hr
      · intro _ s hs
        simp [EnclosingIndex.spansOf, hget] at hs
    | some v =>
      constructor
      · intro r hr
        obtain ⟨hmem, hmin⟩ := minByKeyFirst_spec fnSpanExtent _ r hr
        have hrc := List.mem_filter.mp hmem
        refine ⟨hrc.2, ?_⟩
        intro s hs hsc
        have hsv : s ∈ v := by simpa [EnclosingIndex.spansOf, hget] using hs
        exact hmin s (List.mem_filter.mpr ⟨hsv, hsc⟩)
      · intro hnone s hs
        have hfe : v.filter (fun f => f.contains loc) = [] :=
          minByKeyFirst_none fnSpanExtent _ hnone
        have hsv : s ∈ v := by simpa [EnclosingIndex.spansOf, hget] using hs
        by_contra hc
        have hct : s.contains loc = true := by
          cases h : s.contains loc with
          | false => exact absurd h hc
          | true => rfl
        have : s ∈ v.filter (fun f => f.contains loc) :=
          List.mem_filter.mpr ⟨hsv, hct⟩
        rw [hfe] at this
        simp at this

/-- C5 witness: at the concrete index and location the lookup returns the
inner span, which contains the location and has minimal extent. -/
theorem span_containment_and_minimal_enclosing_witness :
    spanInner.contains locEx = true ∧ fnSpanExtent spanInner ≤ fnSpanExtent spanOuter := by
  have happ := (span_containment_and_minimal_enclosing.2 idxEx locEx).1 spanInner (by decide)
  refine ⟨happ.1, happ.2 spanOuter (by decide) (by decide)⟩

/-- C10: when the location's line or column is absent, the enclosing
lookup returns no span, whatever spans the index holds. -/
theorem enclosing_none_without_position (idx : EnclosingIndex) (loc : FileLocation)
    (h : loc.line = none ∨ loc.column = none) : idx.enclosing loc = none := by
  have hc : ∀ s : FnSpan, s.contains loc = false := by
    intro s
    obtain ⟨p, oline, ocol⟩ := loc
    rcases h with h | h
    · simp only at h
      subst h
      cases ocol <;> simp [FnSpan.contains]
    · simp only at h
      subst h
      cases oline <;> simp [FnSpan.contains]
  unfold EnclosingIndex.enclosing
  cases hget : idx.getFile loc.path with
  | none => rfl
  | some v =>
    show minByKeyFirst fnSpanExtent (List.filter (fun f => f.contains loc) v) = none
    have hfe : List.filter (fun f => f.contains loc) v = [] :=
      List.filter_eq_nil_iff.mpr (fun a _ => by simp [hc a])
    rw [hfe]
    rfl

/-- C10 witness: a line-less location finds nothing even in the populated
example index. -/
theorem enclosing_none_without_position_witness :
    idxEx.enclosing ⟨"lib.rs", none, some 3⟩ = none :=
  enclosing_none_without_position idxEx ⟨"lib.rs", none, some 3⟩ (Or.inl rfl)

/-- Keys after a `btInsert` are the new key plus the previous keys. -/
theorem keys_btInsert {α : Type} (m : List (String × α)) (k : String) (v : α) (a : String) :
    a ∈ (btInsert m k v).map Prod.fst ↔ a = k ∨ a ∈ m.map Prod.fst := by
  induction m with
  | nil => simp [btInsert]
  | cons e t ih =>
    obtain ⟨k', v'⟩ := e
    by_cases h1 : strLt k k' = true
    · simp [btInsert, h1]
    · by_cases h2 : k = k'
      · subst h2
        simp [btInsert, h1]
      · simp [btInsert, h1, h2, ih]
        tauto

/-- Every entry of a `btInsert` is the inserted pair or an original one. -/
theorem mem_btInsert_elim {α : Type} (m : List (String × α)) (k : String) (v : α)
    (e : String × α) (h : e ∈ btInsert m k v) : e = (k, v) ∨ e ∈ m := by
  induction m with
  | nil => simpa [btInsert] using h
  | cons x t ih =>
    obtain ⟨k', v'⟩ := x
    by_cases h1 : strLt k k' = true
    · simp only [btInsert, if_pos h1] at h
      rcases List.mem_cons.mp h with h2 | h2
      · exact Or.inl h2
      · exact Or.inr h2
    · by_cases h2 : k = k'
      · subst h2
        rw [btInsert, if_neg h1, if_pos rfl] at h
        rcases List.mem_cons.mp h with h3 | h3
        · exact Or.inl h3
        · exact Or.inr (List.mem_cons_of_mem _ h3)
      · rw [btInsert, if_neg h1, if_neg h2] at h
        rcases List.mem_cons.mp h with h3 | h3
        · exact Or.inr (h3 ▸ List.mem_cons_self _ _)
        · rcases ih h3 with h4 | h4
          · exact Or.inl h4
          · exact Or.inr (List.mem_cons_of_mem _ h4)

/-- `btInsert` preserves the strictly-sorted-keys invariant. -/
theorem sortedKeys_btInsert {α : Type} (m : List (String × α)) (k : String) (v : α)
    (h : SortedKeys m) : SortedKeys (btInsert m k v) := by
  induction m with
  | nil => simp [btInsert, SortedKeys]
  | cons x t ih =>
    obtain ⟨k', v'⟩ := x
    rw [SortedKeys, List.pairwise_cons] at h
    obtain ⟨hall, ht⟩ := h
    by_cases h1 : strLt k k' = true
    · rw [btInsert, if_pos h1]
      refine List.Pairwise.cons ?_ (List.Pairwise.cons hall ht)
      intro e he
      rcases List.mem_cons.mp he with h2 | h2
      · exact h2 ▸ h1
      · exact strLt_trans h1 (hall e h2)
    · by_cases h2 : k = k'
      · subst h2
        rw [btInsert, if_neg h1, if_pos rfl]
        exact List.Pairwise.cons hall ht
      · rw [btInsert, if_neg h1, if_neg h2]
        refine List.Pairwise.cons ?_ (ih ht)
        intro e he
        have hk : strLt k' k = true := by
          by_cases h3 : strLt k' k = true
          · exact h3
          · exact absurd (strLt_conn h1 h3) h2
        rcases mem_btInsert_elim t k v e he with h3 | h3
        · rw [h3]
          exact hk
        · exact hall e h3

/-- A map lookup succeeds exactly for the present keys. -/
theorem mapGet_isSome_iff {α : Type} (m : List (String × α)) (k : String) :
    (mapGet m k).isSome = true ↔ k ∈ m.map Prod.fst := by
  induction m with
  | nil => simp [mapGet]
  | cons x t ih =>
    obtain ⟨k', v'⟩ := x
    by_cases h : k = k'
    · subst h
      simp [mapGet]
    · simp [mapGet, h, ih, fun hh : k' = k => h hh.symm]

/-- A successful lookup returns one of the entries. -/
theorem mapGet_some_mem {α : Type} (m : List (String × α)) (k : String) (v : α)
    (h : mapGet m k = some v) : (k, v) ∈ m := by
  induction m with
  | nil => simp [mapGet] at h
  | cons x t ih =>
    obtain ⟨k', v'⟩ := x
    by_cases h1 : k = k'
    · subst h1
      rw [mapGet, if_pos rfl] at h
      cases h
      exact List.mem_cons_self _ _
    · rw [mapGet, if_neg h1] at h
      exact List.mem_cons_of_mem _ (ih h)

/-- On a sorted map, lookup of an entry's key returns exactly its value. -/
theorem mapGet_of_mem_sorted {α : Type} (m : List (String × α)) (k : String) (v : α)
    (hs : SortedKeys m) (h : (k, v) ∈ m) : mapGet m k = some v := by
  induction m with
  | nil => simp at h
  | cons x t ih =>
    obtain ⟨k', v'⟩ := x
    rw [SortedKeys, List.pairwise_cons] at hs
    obtain ⟨hall, ht⟩ := hs
    rcases List.mem_cons.mp h with h1 | h1
    · cases h1
      rw [mapGet, if_pos rfl]
    · have hlt : strLt k' k = true := hall (k, v) h1
      have hne : k ≠ k' := (strLt_ne hlt).symm
      rw [mapGet, if_neg hne]
      exact ih ht h1

/-- Keys accumulated by the `fnMapOf` fold: accumulator keys plus the
fq names of the processed fingers. -/
theorem keys_fnMapOf_fold (l : List FnFinger) :
    ∀ (m : List (String × FnFinger)) (a : String),
      a ∈ ((l.foldl (fun m f => btInsert m f.fq_name f) m).map Prod.fst) ↔
        a ∈ m.map Prod.fst ∨ a ∈ l.map FnFinger.fq_name := by
  induction l with
  | nil => simp
  | cons f t ih =>
    intro m a
    simp only [List.foldl_cons, List.map_cons, List.mem_cons]
    rw [ih, keys_btInsert]
    tauto

/-- A key is in the finger map iff it is an fq name of the list. -/
theorem mem_keys_fnMapOf (l : List FnFinger) (a : String) :
    a ∈ (fnMapOf l).map Prod.fst ↔ a ∈ l.map FnFinger.fq_name := by
  rw [fnMapOf, keys_fnMapOf_fold]
  simp

/-- Entries accumulated by the `fnMapOf` fold come from the accumulator
or are keyed fingers of the list. -/
theorem entry_fnMapOf_fold (l : List FnFinger) :
    ∀ (m : List (String × FnFinger)) (e : String × FnFinger),
      e ∈ l.foldl (fun m f => btInsert m f.fq_name f) m →
        e ∈ m ∨ (e.1 = e.2.fq_name ∧ e.2 ∈ l) := by
  induction l with
  | nil => intro m e h; exact Or.inl h
  | cons f t ih =>
    intro m e h
    simp only [List.foldl_cons] at h
    rcases ih _ e h with h1 | h1
    · rcases mem_btInsert_elim m f.fq_name f e h1 with h2 | h2
      · subst h2
        exact Or.inr ⟨rfl, List.mem_cons_self _ _⟩
      · exact Or.inl h2
    · exact Or.inr ⟨h1.1, List.mem_cons_of_mem _ h1.2⟩

/-- Every entry of the finger map is keyed by its finger's fq name, and
its finger occurs in the underlying list. -/
theorem fnMapOf_entry (l : List FnFinger) (e : String × FnFinger)
    (h : e ∈ fnMapOf l) : e.1 = e.2.fq_name ∧ e.2 ∈ l := by
  rcases entry_fnMapOf_fold l [] e h with h1 | h1
  · simp at h1
  · exact h1

/-- The finger map has strictly sorted keys. -/
theorem fnMapOf_sorted (l : List FnFinger) : SortedKeys (fnMapOf l) := by
  have hgen : ∀ (l' : List FnFinger) (m : List (String × FnFinger)),
      SortedKeys m → SortedKeys (l'.foldl (fun m f => btInsert m f.fq_name f) m) := by
    intro l'
    induction l' with
    | nil => intro m hm; exact hm
    | cons f t ih =>
      intro m hm
      exact ih _ (sortedKeys_btInsert m f.fq_name f hm)
  exact hgen l [] (List.Pairwise.nil)

/-- Binds over two independent options commute. -/
theorem optionBind_comm {β γ δ : Type} (a : Option β) (b : Option γ) (f : β → γ → Option δ) :
    (a.bind fun x => b.bind fun y => f x y) = b.bind fun y => a.bind fun x => f x y := by
  cases a <;> cases b <;> rfl

/-- `filterMap` ignores the positions mapped to `none`, so restricting to
the `isSome` positions first changes nothing. -/
theorem filterMap_restrict_isSome {β γ : Type} (l : List β) (F : β → Option γ) :
    l.filterMap F = (l.filter (fun x => (F x).isSome)).filterMap F := by
  induction l with
  | nil => rfl
  | cons x t ih =>
    cases hx : F x with
    | none => simp [List.filterMap_cons, List.filter_cons, hx, ih]
    | some b => simp [List.filterMap_cons, List.filter_cons, hx, ih]

/-- Strictly sorted string lists with the same members are equal. -/
theorem sorted_eq_of_mem_iff {l₁ l₂ : List String}
    (h₁ : l₁.Pairwise (fun a b => strLt a b = true))
    (h₂ : l₂.Pairwise (fun a b => strLt a b = true))
    (h : ∀ a, a ∈ l₁ ↔ a ∈ l₂) : l₁ = l₂ := by
  haveI : IsAntisymm String (fun a b => strLt a b = true) :=
    ⟨fun a b x y => by rw [strLt_asymm x] at y; cases y⟩
  have hn₁ : l₁.Nodup := h₁.imp (fun hlt => strLt_ne hlt)
  have hn₂ : l₂.Nodup := h₂.imp (fun hlt => strLt_ne hlt)
  exact List.eq_of_perm_of_sorted ((List.perm_ext_iff_of_nodup hn₁ hn₂).mpr h) h₁ h₂

/-- Over a sorted map, a `filterMap` of the entries is the `filterMap`
over the key list that looks each key back up. -/
theorem filterMap_keys_of_sorted {α β : Type} (m : List (String × α))
    (F : String → α → Option β) (hs : SortedKeys m) :
    m.filterMap (fun e => F e.1 e.2) =
      (m.map Prod.fst).filterMap (fun k => (mapGet m k).bind (F k)) := by
  induction m with
  | nil => rfl
  | cons x t ih =>
    obtain ⟨k, v⟩ := x
    rw [SortedKeys, List.pairwise_cons] at hs
    obtain ⟨hall, ht⟩ := hs
    have hhead : (mapGet ((k, v) :: t) k).bind (F k) = F k v := by
      rw [mapGet, if_pos rfl, Option.some_bind]
    have htail : (t.map Prod.fst).filterMap (fun k' => (mapGet ((k, v) :: t) k').bind (F k'))
        = (t.map Prod.fst).filterMap (fun k' => (mapGet t k').bind (F k')) := by
      refine List.filterMap_congr ?_
      intro a ha
      obtain ⟨e, he, hea⟩ := List.mem_map.mp ha
      have hka : strLt k a = true := hea ▸ hall e he
      have hne : a ≠ k := (strLt_ne hka).symm
      rw [mapGet, if_neg hne]
    cases hFv : F k v with
    | none =>
      simp only [List.filterMap_cons, hFv, List.map_cons, hhead, htail, ih ht]
    | some b =>
      simp only [List.filterMap_cons, hFv, List.map_cons, hhead, htail, ih ht]

/-- The added-functions projection of the diff, unfolded. -/
theorem diff_added_eq (a b : Snapshot) :
    (a.diff b).added_functions =
      (fnMapOf a.functions).filterMap (fun e =>
        match mapGet (fnMapOf b.functions) e.1 with
        | none => some e.2
        | some _ => none) := rfl

/-- The removed-functions projection of one orientation is the
added-functions projection of the other, directly from the definition. -/
theorem diff_removed_eq_added (a b : Snapshot) :
    (a.diff b).removed_functions = (b.diff a).added_functions := rfl

/-- The changed-signatures projection of the diff, unfolded. -/
theorem diff_changed_eq (a b : Snapshot) :
    (a.diff b).changed_signatures =
      (fnMapOf a.functions).filterMap (fun e =>
        match mapGet (fnMapOf b.functions) e.1 with
        | some og => if og.sig_hash != e.2.sig_hash then some (og, e.2) else none
        | none => none) := rfl

/-- Key-level reading of added-functions: some added finger carries fq
name `k` exactly when `k` names a new-snapshot function and no
old-snapshot function. -/
theorem diff_added_iff (a b : Snapshot) (k : String) :
    (∃ f, f ∈ (a.diff b).added_functions ∧ f.fq_name = k) ↔
      (k ∈ a.functions.map FnFinger.fq_name ∧ k ∉ b.functions.map FnFinger.fq_name) := by
  rw [diff_added_eq]
  constructor
  · rintro ⟨f, hf, rfl⟩
    obtain ⟨e, he, hfe⟩ := List.mem_filterMap.mp hf
    cases hma : mapGet (fnMapOf b.functions) e.1 with
    | some w => rw [hma] at hfe; exact absurd hfe (by simp)
    | none =>
      rw [hma] at hfe
      have hef : e.2 = f := by simpa using hfe
      obtain ⟨hkey, _⟩ := fnMapOf_entry a.functions e he
      have hkeq : f.fq_name = e.1 := by rw [← hef, ← hkey]
      constructor
      · rw [hkeq, ← mem_keys_fnMapOf]
        exact List.mem_map.mpr ⟨e, he, rfl⟩
      · rw [hkeq, ← mem_keys_fnMapOf]
        intro hmem
        have := (mapGet_isSome_iff (fnMapOf b.functions) e.1).mpr hmem
        rw [hma] at this
        simp at this
  · rintro ⟨hmemN, hmemO⟩
    rw [← mem_keys_fnMapOf] at hmemN
    have hsome := (mapGet_isSome_iff (fnMapOf a.functions) k).mpr hmemN
    obtain ⟨nf, hnf⟩ := Option.isSome_iff_exists.mp hsome
    have hnone : mapGet (fnMapOf b.functions) k = none := by
      cases hmb : mapGet (fnMapOf b.functions) k with
      | none => rfl
      | some w =>
        exfalso
        apply hmemO
        rw [← mem_keys_fnMapOf]
        exact (mapGet_isSome_iff (fnMapOf b.functions) k).mp (by rw [hmb]; rfl)
    have hent := mapGet_some_mem (fnMapOf a.functions) k nf hnf
    obtain ⟨hkey, _⟩ := fnMapOf_entry a.functions (k, nf) hent
    refine ⟨nf, List.mem_filterMap.mpr ⟨(k, nf), hent, ?_⟩, hkey.symm⟩
    simp only [hnone]

/-- A changed pair emitted at an entry always carries the entry's own
finger on its new side. -/
theorem chg_emit_snd (om : List (String × FnFinger)) (e : String × FnFinger)
    (q : FnFinger × FnFinger)
    (hFe : (match mapGet om e.1 with
        | some og => if og.sig_hash != e.2.sig_hash then some (og, e.2) else none
        | none => none) = some q) : q.2 = e.2 := by
  cases hma : mapGet om e.1 with
  | none =>
    simp only [hma] at hFe
    exact absurd hFe (by simp)
  | some og =>
    simp only [hma] at hFe
    by_cases hog : (og.sig_hash != e.2.sig_hash) = true
    · rw [if_pos hog] at hFe
      cases hFe
      rfl
    · rw [if_neg hog] at hFe
      exact absurd hFe (by simp)

/-- When a post-filter agrees with a pre-filter on every emitted value,
filtering after a `filterMap` equals filtering before it. -/
theorem filter_filterMap_keyed {β γ : Type} (F : β → Option γ) (p : γ → Bool)
    (keyP : β → Bool) :
    ∀ (m : List β), (∀ e ∈ m, ∀ q, F e = some q → p q = keyP e) →
      ((m.filterMap F).filter p) = (m.filter keyP).filterMap F := by
  intro m
  induction m with
  | nil => intro _; rfl
  | cons e t ih =>
    intro hcons
    have ihr := ih (fun e' he' => hcons e' (List.mem_cons_of_mem _ he'))
    cases hFe : F e with
    | none =>
      rw [List.filterMap_cons_none hFe]
      cases hkp : keyP e with
      | true =>
        rw [List.filter_cons_of_pos (by rw [hkp]), List.filterMap_cons_none hFe]
        exact ihr
      | false =>
        rw [List.filter_cons_of_neg (by rw [hkp]; exact Bool.false_ne_true)]
        exact ihr
    | some q =>
      have hp : p q = keyP e := hcons e (List.mem_cons_self _ _) q hFe
      rw [List.filterMap_cons_some hFe]
      cases hkp : keyP e with
      | true =>
        rw [List.filter_cons_of_pos (by rw [hp, hkp]),
          List.filter_cons_of_pos (by rw [hkp]), List.filterMap_cons_some hFe, ihr]
      | false =>
        rw [List.filter_cons_of_neg (by rw [hp, hkp]; exact Bool.false_ne_true),
          List.filter_cons_of_neg (by rw [hkp]; exact Bool.false_ne_true)]
        exact ihr

/-- On a sorted map holding `k ↦ nf`, restricting the entries to key `k`
leaves exactly that one entry. -/
theorem filter_key_sorted (m : List (String × FnFinger)) (k : String) (nf : FnFinger)
    (hs : SortedKeys m) (hm : mapGet m k = some nf) :
    m.filter (fun e => e.1 == k) = [(k, nf)] := by
  induction m with
  | nil => simp [mapGet] at hm
  | cons x t ih =>
    obtain ⟨k', v⟩ := x
    rw [SortedKeys, List.pairwise_cons] at hs
    obtain ⟨hall, ht⟩ := hs
    by_cases hkk : k = k'
    · subst hkk
      rw [mapGet, if_pos rfl] at hm
      cases hm
      rw [List.filter_cons_of_pos (by simp)]
      have htn : t.filter (fun e => e.1 == k) = [] := by
        refine List.filter_eq_nil_iff.mpr ?_
        intro e he
        have hlt := hall e he
        simp only [beq_iff_eq]
        intro hek
        rw [hek, strLt_irrefl] at hlt
        cases hlt
      rw [htn]
    · rw [mapGet, if_neg hkk] at hm
      rw [List.filter_cons_of_neg (by simp; exact fun hh => hkk hh.symm)]
      exact ih ht hm

/-- On a sorted, fq-keyed map holding `k ↦ nf`, with the old map giving
`of` at `k`, the changed pairs keyed `k` are exactly the one (old, new)
pair when the hashes differ, and none otherwise. -/
theorem chg_filter_eq_if (om m : List (String × FnFinger)) (k : String)
    (nf of : FnFinger) (hs : SortedKeys m) (hkey : ∀ e ∈ m, e.1 = e.2.fq_name)
    (hm : mapGet m k = some nf) (ho : mapGet om k = some of) :
    ((m.filterMap (fun e =>
        match mapGet om e.1 with
        | some og => if og.sig_hash != e.2.sig_hash then some (og, e.2) else none
        | none => none)).filter (fun p => p.2.fq_name == k))
      = if of.sig_hash != nf.sig_hash then [(of, nf)] else [] := by
  rw [filter_filterMap_keyed _ _ (fun e => e.1 == k) m ?hagree]
  case hagree =>
    intro e he q hFe
    have h2 := chg_emit_snd om e q hFe
    rw [h2, ← hkey e he]
  rw [filter_key_sorted m k nf hs hm]
  by_cases hog : (of.sig_hash != nf.sig_hash) = true
  · rw [if_pos hog]
    have hF1 : (match mapGet om k with
        | some og => if og.sig_hash != nf.sig_hash then some (og, nf) else none
        | none => none) = some (of, nf) := by
      rw [ho]
      exact if_pos hog
    simp only [List.filterMap_cons, List.filterMap_nil, hF1]
  · rw [if_neg hog]
    have hF1 : (match mapGet om k with
        | some og => if og.sig_hash != nf.sig_hash then some (og, nf) else none
        | none => none) = none := by
      rw [ho]
      exact if_neg hog
    simp only [List.filterMap_cons, List.filterMap_nil, hF1]

/-- `btInsert` commutes with the hash projection. -/
theorem hashProj_btInsert (m : List (String × FnFinger)) (k : String) (v : FnFinger) :
    hashProj (btInsert m k v) = btInsert (hashProj m) k v.sig_hash := by
  induction m with
  | nil => rfl
  | cons x t ih =>
    obtain ⟨k', v'⟩ := x
    by_cases h1 : strLt k k' = true
    · simp [btInsert, hashProj, h1]
    · by_cases h2 : k = k'
      · subst h2
        simp [btInsert, hashProj, h1]
      · simp only [btInsert, hashProj, List.map_cons, if_neg h1, if_neg h2]
        rw [← hashProj, ← hashProj, ih]

/-- The finger-map fold commutes with the hash projection. -/
theorem hashProj_fold (l : List FnFinger) :
    ∀ (m : List (String × FnFinger)),
      hashProj (l.foldl (fun m f => btInsert m f.fq_name f) m)
        = (l.map (fun f => (f.fq_name, f.sig_hash))).foldl
            (fun m e => btInsert m e.1 e.2) (hashProj m) := by
  induction l with
  | nil => intro m; rfl
  | cons f t ih =>
    intro m
    simp only [List.foldl_cons, List.map_cons]
    rw [ih, hashProj_btInsert]

/-- Lookup commutes with the hash projection. -/
theorem mapGet_hashProj (m : List (String × FnFinger)) (k : String) :
    mapGet (hashProj m) k = (mapGet m k).map FnFinger.sig_hash := by
  induction m with
  | nil => rfl
  | cons x t ih =>
    obtain ⟨k', v'⟩ := x
    by_cases h : k = k'
    · subst h
      simp [hashProj, mapGet]
    · simp only [hashProj, List.map_cons, mapGet, if_neg h]
      exact ih

/-- The hash projection keeps the key list. -/
theorem keys_hashProj (m : List (String × FnFinger)) :
    (hashProj m).map Prod.fst = m.map Prod.fst := by
  simp [hashProj, List.map_map]

/-- C4: the function diff is keyed by fq name — an added (resp. removed)
finger keyed `k` exists iff `k` names only a new-run (resp. only an
old-run) function; a key mapped in both with differing hashes yields
exactly one (old, new) changed pair and with equal hashes yields no entry
at all; and snapshots of fact states agreeing on every (fq name,
signature text) — locations free to drift — diff to empty function
projections. -/
theorem snapshot_diff_function_key_semantics :
    (∀ (newS oldS : Snapshot) (k : String),
      ((∃ f, f ∈ (newS.diff oldS).added_functions ∧ f.fq_name = k) ↔
        (k ∈ newS.functions.map FnFinger.fq_name ∧ k ∉ oldS.functions.map FnFinger.fq_name))
      ∧ ((∃ f, f ∈ (newS.diff oldS).removed_functions ∧ f.fq_name = k) ↔
        (k ∈ oldS.functions.map FnFinger.fq_name ∧ k ∉ newS.functions.map FnFinger.fq_name))
      ∧ (∀ nf of,
          mapGet (fnMapOf newS.functions) k = some nf →
          mapGet (fnMapOf oldS.functions) k = some of →
          (of.sig_hash ≠ nf.sig_hash →
            ((newS.diff oldS).changed_signatures.filter (fun p => p.2.fq_name == k))
              = [(of, nf)])
          ∧ (of.sig_hash = nf.sig_hash →
              (¬ ∃ f, f ∈ (newS.diff oldS).added_functions ∧ f.fq_name = k)
              ∧ (¬ ∃ f, f ∈ (newS.diff oldS).removed_functions ∧ f.fq_name = k)
              ∧ ((newS.diff oldS).changed_signatures.filter (fun p => p.2.fq_name == k))
                  = [])))
    ∧ (∀ (hashSig : String → String) (A B : Klepto),
        A.functions.map (fun f => (f.fq_name, f.signature))
          = B.functions.map (fun f => (f.fq_name, f.signature)) →
        ((Snapshot.from_klepto hashSig A).diff (Snapshot.from_klepto hashSig B)).added_functions = []
        ∧ ((Snapshot.from_klepto hashSig A).diff (Snapshot.from_klepto hashSig B)).removed_functions = []
        ∧ ((Snapshot.from_klepto hashSig A).diff (Snapshot.from_klepto hashSig B)).changed_signatures = []) := by
  constructor
  · intro newS oldS k
    refine ⟨diff_added_iff newS oldS k, ?_, ?_⟩
    · rw [diff_removed_eq_added]
      exact diff_added_iff oldS newS k
    · intro nf of hn ho
      constructor
      · intro hne
        have hb : (of.sig_hash != nf.sig_hash) = true := bne_iff_ne.mpr hne
        rw [diff_changed_eq,
          chg_filter_eq_if (fnMapOf oldS.functions) (fnMapOf newS.functions) k nf of
            (fnMapOf_sorted _) (fun e he => (fnMapOf_entry _ e he).1) hn ho,
          if_pos hb]
      · intro heq
        have hb : ¬ ((of.sig_hash != nf.sig_hash) = true) := by simp [heq]
        refine ⟨?_, ?_, ?_⟩
        · intro hx
          obtain ⟨_, hmemO⟩ := (diff_added_iff newS oldS k).mp hx
          apply hmemO
          rw [← mem_keys_fnMapOf]
          exact (mapGet_isSome_iff _ k).mp (by rw [ho]; rfl)
        · intro hx
          rw [diff_removed_eq_added] at hx
          obtain ⟨_, hmemN⟩ := (diff_added_iff oldS newS k).mp hx
          apply hmemN
          rw [← mem_keys_fnMapOf]
          exact (mapGet_isSome_iff _ k).mp (by rw [hn]; rfl)
        · rw [diff_changed_eq,
            chg_filter_eq_if (fnMapOf oldS.functions) (fnMapOf newS.functions) k nf of
              (fnMapOf_sorted _) (fun e he => (fnMapOf_entry _ e he).1) hn ho,
            if_neg hb]
  · intro hashSig A B hq
    have hfp : (Snapshot.from_klepto hashSig A).functions.map (fun f => (f.fq_name, f.sig_hash))
        = (Snapshot.from_klepto hashSig B).functions.map (fun f => (f.fq_name, f.sig_hash)) := by
      have h2 := congrArg (List.map (fun p : String × String => (p.1, hashSig p.2))) hq
      rw [List.map_map, List.map_map] at h2
      simpa [Snapshot.from_klepto, List.map_map, Function.comp] using h2
    have hmap : hashProj (fnMapOf (Snapshot.from_klepto hashSig A).functions)
        = hashProj (fnMapOf (Snapshot.from_klepto hashSig B).functions) := by
      rw [fnMapOf, fnMapOf, hashProj_fold, hashProj_fold, hfp]
    have hkeys : ∀ a, a ∈ (fnMapOf (Snapshot.from_klepto hashSig A).functions).map Prod.fst
        ↔ a ∈ (fnMapOf (Snapshot.from_klepto hashSig B).functions).map Prod.fst := by
      intro a
      rw [← keys_hashProj, ← keys_hashProj (fnMapOf (Snapshot.from_klepto hashSig B).functions),
        hmap]
    have hgetB : ∀ e, e ∈ fnMapOf (Snapshot.from_klepto hashSig A).functions →
        ∃ w, mapGet (fnMapOf (Snapshot.from_klepto hashSig B).functions) e.1 = some w := by
      intro e he
      have h1 : e.1 ∈ (fnMapOf (Snapshot.from_klepto hashSig A).functions).map Prod.fst :=
        List.mem_map.mpr ⟨e, he, rfl⟩
      exact Option.isSome_iff_exists.mp ((mapGet_isSome_iff _ e.1).mpr ((hkeys e.1).mp h1))
    have hgetA : ∀ e, e ∈ fnMapOf (Snapshot.from_klepto hashSig B).functions →
        ∃ w, mapGet (fnMapOf (Snapshot.from_klepto hashSig A).functions) e.1 = some w := by
      intro e he
      have h1 : e.1 ∈ (fnMapOf (Snapshot.from_klepto hashSig B).functions).map Prod.fst :=
        List.mem_map.mpr ⟨e, he, rfl⟩
      exact Option.isSome_iff_exists.mp ((mapGet_isSome_iff _ e.1).mpr ((hkeys e.1).mpr h1))
    refine ⟨?_, ?_, ?_⟩
    · rw [diff_added_eq]
      refine List.filterMap_eq_nil_iff.mpr ?_
      intro e he
      obtain ⟨w, hw⟩ := hgetB e he
      simp only [hw]
    · rw [diff_removed_eq_added, diff_added_eq]
      refine List.filterMap_eq_nil_iff.mpr ?_
      intro e he
      obtain ⟨w, hw⟩ := hgetA e he
      simp only [hw]
    · rw [diff_changed_eq]
      refine List.filterMap_eq_nil_iff.mpr ?_
      intro e he
      obtain ⟨og, hog⟩ := hgetB e he
      have hmemA : (e.1, e.2) ∈ fnMapOf (Snapshot.from_klepto hashSig A).functions := by
        rw [Prod.mk.eta]
        exact he
      have hga : mapGet (fnMapOf (Snapshot.from_klepto hashSig A).functions) e.1 = some e.2 :=
        mapGet_of_mem_sorted _ _ _ (fnMapOf_sorted _) hmemA
      have hA : mapGet (hashProj (fnMapOf (Snapshot.from_klepto hashSig A).functions)) e.1
          = some e.2.sig_hash := by
        rw [mapGet_hashProj, hga]
        rfl
      have hB : mapGet (hashProj (fnMapOf (Snapshot.from_klepto hashSig B).functions)) e.1
          = some og.sig_hash := by
        rw [mapGet_hashProj, hog]
        rfl
      rw [hmap] at hA
      rw [hA] at hB
      have heqh : e.2.sig_hash = og.sig_hash := by
        injection hB
      simp only [hog, ← heqh, bne_self_eq_false]
      simp

/-- C4 witness: concrete diffs exhibit the changed pair, the added key,
and the empty diff under pure location drift. -/
theorem snapshot_diff_function_key_semantics_witness :
    ((snapNew.diff snapOld).changed_signatures.filter (fun p => p.2.fq_name == "demo::f"))
        = [(fgOld, fgNew)]
    ∧ (∃ f, f ∈ (snapNew.diff snapOld).added_functions ∧ f.fq_name = "demo::g")
    ∧ ((Snapshot.from_klepto (fun s => s) kOneDoc).diff
        (Snapshot.from_klepto (fun s => s) kOneDocMoved)).changed_signatures = [] := by
  have h := snapshot_diff_function_key_semantics
  refine ⟨?_, ?_, ?_⟩
  · exact ((h.1 snapNew snapOld "demo::f").2.2 fgNew fgOld (by decide) (by decide)).1 (by decide)
  · exact (h.1 snapNew snapOld "demo::g").1.mpr (by decide)
  · exact (h.2 (fun s => s) kOneDoc kOneDocMoved (by decide)).2.2

/-- `Option.map` distributes over `Option.bind`. -/
theorem optionMapBind {β γ δ : Type} (o : Option β) (f : β → Option γ) (g : γ → δ) :
    ((o.bind f).map g) = o.bind (fun x => (f x).map g) := by
  cases o <;> rfl

/-- `bne` on strings is symmetric. -/
theorem strBneComm (x y : String) : (x != y) = (y != x) := by
  by_cases h : x = y
  · subst h
    rfl
  · have h1 : (x != y) = true := bne_iff_ne.mpr h
    have h2 : (y != x) = true := bne_iff_ne.mpr (Ne.symm h)
    rw [h1, h2]

/-- A defined pairing forces both lookups to succeed. -/
theorem chgPair_isSome_both (mA mB : List (String × FnFinger)) (k : String)
    (h : (chgPair mA mB k).isSome = true) :
    k ∈ mA.map Prod.fst ∧ k ∈ mB.map Prod.fst := by
  cases hga : mapGet mA k with
  | none => rw [chgPair, hga] at h; cases h
  | some a =>
    cases hgb : mapGet mB k with
    | none => rw [chgPair, hga, hgb] at h; cases h
    | some b =>
      exact ⟨(mapGet_isSome_iff mA k).mp (by rw [hga]; rfl),
        (mapGet_isSome_iff mB k).mp (by rw [hgb]; rfl)⟩

/-- Keys of a finger map are strictly sorted. -/
theorem keys_fnMapOf_pairwise (l : List FnFinger) :
    ((fnMapOf l).map Prod.fst).Pairwise (fun a b => strLt a b = true) :=
  List.Pairwise.map Prod.fst (fun _ _ h => h) (fnMapOf_sorted l)

/-- The changed-signatures list, re-expressed over the sorted key list of
the new map via the common-key pairing. -/
theorem changed_eq_keys_filterMap (a b : Snapshot) :
    (a.diff b).changed_signatures =
      ((fnMapOf a.functions).map Prod.fst).filterMap (fun k =>
        (chgPair (fnMapOf b.functions) (fnMapOf a.functions) k)) := by
  rw [diff_changed_eq]
  have hA := filterMap_keys_of_sorted (fnMapOf a.functions)
    (fun k v => (mapGet (fnMapOf b.functions) k).bind (fun og =>
      if og.sig_hash != v.sig_hash then some (og, v) else none)) (fnMapOf_sorted _)
  refine Eq.trans ?_ (Eq.trans hA ?_)
  · refine List.filterMap_congr (fun e _ => ?_)
    show (match mapGet (fnMapOf b.functions) e.1 with
        | some og => if og.sig_hash != e.2.sig_hash then some (og, e.2) else none
        | none => none)
      = (mapGet (fnMapOf b.functions) e.1).bind (fun og =>
          if og.sig_hash != e.2.sig_hash then some (og, e.2) else none)
    cases mapGet (fnMapOf b.functions) e.1 <;> rfl
  · refine List.filterMap_congr (fun k _ => ?_)
    show (mapGet (fnMapOf a.functions) k).bind (fun v =>
        (mapGet (fnMapOf b.functions) k).bind (fun og =>
          if og.sig_hash != v.sig_hash then some (og, v) else none))
      = chgPair (fnMapOf b.functions) (fnMapOf a.functions) k
    exact optionBind_comm _ _ _

/-- The swapped changed-signatures list equals the key-list form over the
new map's keys, with old and new drawn from the maps in swapped roles. -/
theorem changed_swap_eq_keys_filterMap (a b : Snapshot) :
    ((a.diff b).changed_signatures).map (fun p => (p.2, p.1)) =
      ((fnMapOf a.functions).map Prod.fst).filterMap (fun k =>
        (chgPair (fnMapOf a.functions) (fnMapOf b.functions) k)) := by
  rw [diff_changed_eq, List.map_filterMap]
  have hA := filterMap_keys_of_sorted (fnMapOf a.functions)
    (fun k v => (mapGet (fnMapOf b.functions) k).bind (fun og =>
      if v.sig_hash != og.sig_hash then some (v, og) else none)) (fnMapOf_sorted _)
  refine Eq.trans ?_ (Eq.trans hA rfl)
  refine List.filterMap_congr (fun e _ => ?_)
  show ((match mapGet (fnMapOf b.functions) e.1 with
      | some og => if og.sig_hash != e.2.sig_hash then some (og, e.2) else none
      | none => none) : Option (FnFinger × FnFinger)).map (fun p => (p.2, p.1))
    = (mapGet (fnMapOf b.functions) e.1).bind (fun og =>
        if e.2.sig_hash != og.sig_hash then some (e.2, og) else none)
  cases hma : mapGet (fnMapOf b.functions) e.1 with
  | none => rfl
  | some og =>
    show ((if og.sig_hash != e.2.sig_hash then some (og, e.2) else none).map
        (fun p => (p.2, p.1)))
      = (if e.2.sig_hash != og.sig_hash then some (e.2, og) else none)
    rw [strBneComm og.sig_hash e.2.sig_hash]
    by_cases hc : (e.2.sig_hash != og.sig_hash) = true
    · rw [if_pos hc, if_pos hc]
      rfl
    · rw [if_neg hc, if_neg hc]
      rfl

/-- Restricting two sorted key lists to the keys where the pairing is
defined yields the same list. -/
theorem chg_keys_common (a b : Snapshot) :
    (((fnMapOf a.functions).map Prod.fst).filter (fun k =>
        (chgPair (fnMapOf b.functions) (fnMapOf a.functions) k).isSome))
      = (((fnMapOf b.functions).map Prod.fst).filter (fun k =>
        (chgPair (fnMapOf b.functions) (fnMapOf a.functions) k).isSome)) := by
  refine sorted_eq_of_mem_iff
    (List.Pairwise.filter _ (keys_fnMapOf_pairwise a.functions))
    (List.Pairwise.filter _ (keys_fnMapOf_pairwise b.functions)) ?_
  intro x
  constructor
  · intro hx
    obtain ⟨hmem, hp⟩ := List.mem_filter.mp hx
    exact List.mem_filter.mpr ⟨(chgPair_isSome_both _ _ x hp).1, hp⟩
  · intro hx
    obtain ⟨hmem, hp⟩ := List.mem_filter.mp hx
    exact List.mem_filter.mpr ⟨(chgPair_isSome_both _ _ x hp).2, hp⟩

/-- C7: swapping the roles of old and new swaps added and removed on all
three projections and reverses each changed-signature pair. -/
theorem snapshot_diff_symmetry (A B : Snapshot) :
    (B.diff A).added_functions = (A.diff B).removed_functions
    ∧ (B.diff A).removed_functions = (A.diff B).added_functions
    ∧ (B.diff A).changed_signatures
        = ((A.diff B).changed_signatures).map (fun p => (p.2, p.1))
    ∧ (B.diff A).added_exports = (A.diff B).removed_exports
    ∧ (B.diff A).removed_exports = (A.diff B).added_exports
    ∧ (B.diff A).added_imports = (A.diff B).removed_imports
    ∧ (B.diff A).removed_imports = (A.diff B).added_imports := by
  refine ⟨rfl, rfl, ?_, rfl, rfl, rfl, rfl⟩
  rw [changed_eq_keys_filterMap B A, changed_swap_eq_keys_filterMap A B]
  rw [filterMap_restrict_isSome (((fnMapOf B.functions).map Prod.fst)) _,
    filterMap_restrict_isSome (((fnMapOf A.functions).map Prod.fst)) _]
  rw [chg_keys_common B A]

/-- C9: the scenario-D declaration decomposes into exactly three
ImportFacts — Name `foo::bar`, Rename `foo::baz` aliased `qux`, and Glob
`foo::*` — each with root `foo`. -/
theorem use_decomposition_scenario_d :
    extract_imports "lib.rs" [scenarioD] =
      [ { root := "foo", segments := ["bar"], module_path := [], is_internal := false,
          is_public_use := false, kind := UseKind.Name, full_path := "foo::bar",
          location := noLoc "lib.rs", origin := none, is_absolute := some false },
        { root := "foo", segments := ["baz"], module_path := [], is_internal := false,
          is_public_use := false, kind := UseKind.Rename "qux", full_path := "foo::baz",
          location := noLoc "lib.rs", origin := none, is_absolute := some false },
        { root := "foo", segments := ["*"], module_path := [], is_internal := false,
          is_public_use := false, kind := UseKind.Glob, full_path := "foo::*",
          location := noLoc "lib.rs", origin := none, is_absolute := some false } ] := by
  decide

/-- Every fact `emit` produces carries `origin = none`. -/
theorem impEmit_origin_none (fp : String) (mp segs : List String) (pu ab : Bool)
    (kind : UseKind) (p : StolenPath) (h : p ∈ impEmit fp mp segs pu ab kind) :
    p.origin = none := by
  cases segs with
  | nil => simp [impEmit] at h
  | cons root rest =>
    simp only [impEmit, List.mem_singleton] at h
    subst h
    rfl

mutual
/-- Every fact `walk_tree` produces carries `origin = none`. -/
theorem walk_tree_origin_none (fp : String) (mp : List String) (tree : UseTree)
    (pfx : List String) (pu ab : Bool) :
    ∀ p ∈ walk_tree fp mp tree pfx pu ab, p.origin = none :=
  match tree with
  | .path ident t => fun p hp => walk_tree_origin_none fp mp t (pfx ++ [ident]) pu ab p
      (by simpa [walk_tree] using hp)
  | .group items => fun p hp => walk_trees_origin_none fp mp items pfx pu ab p
      (by simpa [walk_tree] using hp)
  | .name ident => fun p hp => by
      rw [walk_tree] at hp
      by_cases hi : (ident == "self") = true
      · rw [if_pos hi] at hp
        exact impEmit_origin_none fp mp pfx pu ab UseKind.Name p hp
      · rw [if_neg hi] at hp
        exact impEmit_origin_none fp mp (pfx ++ [ident]) pu ab UseKind.Name p hp
  | .glob => fun p hp => impEmit_origin_none fp mp (pfx ++ ["*"]) pu ab UseKind.Glob p
      (by simpa [walk_tree] using hp)
  | .rename ident al => fun p hp =>
      impEmit_origin_none fp mp (pfx ++ [ident]) pu ab (UseKind.Rename al) p
        (by simpa [walk_tree] using hp)

/-- Every fact `walk_trees` produces carries `origin = none`. -/
theorem walk_trees_origin_none (fp : String) (mp : List String) (items : List UseTree)
    (pfx : List String) (pu ab : Bool) :
    ∀ p ∈ walk_trees fp mp items pfx pu ab, p.origin = none :=
  match items with
  | [] => fun p hp => by simp [walk_trees] at hp
  | t :: ts => fun p hp => by
      rw [walk_trees] at hp
      rcases List.mem_append.mp hp with h1 | h1
      · exact walk_tree_origin_none fp mp t pfx pu ab p h1
      · exact walk_trees_origin_none fp mp ts pfx pu ab p h1
end

mutual
/-- Every fact the item walk produces carries `origin = none`. -/
theorem impWalkItem_origin_none (fp : String) (ms : List String) (n : Node) :
    ∀ p ∈ impWalkItem fp ms n, p.origin = none :=
  match n with
  | .useI isPub leading tree => fun p hp =>
      walk_tree_origin_none fp ms tree [] isPub leading p (by simpa [impWalkItem] using hp)
  | .modI name (some inner) => fun p hp =>
      impWalkItems_origin_none fp (ms ++ [name]) inner p (by simpa [impWalkItem] using hp)
  | .modI name none => fun p hp => by simp [impWalkItem] at hp
  | .traitI _ _ => fun p hp => by simp [impWalkItem] at hp
  | .implI _ _ _ => fun p hp => by simp [impWalkItem] at hp
  | .fnI _ _ _ => fun p hp => by simp [impWalkItem] at hp
  | .tfnI _ _ => fun p hp => by simp [impWalkItem] at hp
  | .ifnI _ _ _ => fun p hp => by simp [impWalkItem] at hp
  | .macI _ _ => fun p hp => by simp [impWalkItem] at hp
  | .callE _ _ => fun p hp => by simp [impWalkItem] at hp
  | .methodCallE _ _ => fun p hp => by simp [impWalkItem] at hp
  | .macE _ => fun p hp => by simp [impWalkItem] at hp
  | .pathE _ => fun p hp => by simp [impWalkItem] at hp

/-- List version of the previous lemma. -/
theorem impWalkItems_origin_none (fp : String) (ms : List String) (ns : List Node) :
    ∀ p ∈ impWalkItems fp ms ns, p.origin = none :=
  match ns with
  | [] => fun p hp => by simp [impWalkItems] at hp
  | n :: rest => fun p hp => by
      rw [impWalkItems] at hp
      rcases List.mem_append.mp hp with h1 | h1
      · exact impWalkItem_origin_none fp ms n p h1
      · exact impWalkItems_origin_none fp ms rest p h1
end

/-- After `KleptoBuilder::parse`, every import's origin is still `none`:
classification ran on the empty vector before extraction filled it. -/
theorem parse_imports_origin_none (files : List ParsedUnit)
    (ws deps : List String) :
    ∀ p ∈ parse_imports files ws deps, p.origin = none := by
  have hgen : ∀ (fs : List ParsedUnit) (acc : List StolenPath),
      (∀ p ∈ acc, p.origin = none) →
      ∀ p ∈ fs.foldl (fun acc pf => acc ++ extract_imports pf.path pf.ast) acc,
        p.origin = none := by
    intro fs
    induction fs with
    | nil => intro acc hacc p hp; exact hacc p hp
    | cons pf rest ih =>
      intro acc hacc p hp
      refine ih (acc ++ extract_imports pf.path pf.ast) ?_ p hp
      intro q hq
      rcases List.mem_append.mp hq with h1 | h1
      · exact hacc q h1
      · exact impWalkItems_origin_none pf.path [] pf.ast q h1
  intro p hp
  exact hgen files [] (by simp) p hp

/-- C1 code-bug evidence: parsing a workspace with one `use std::mem;`
declaration leaves that import with `origin = none` instead of
`Some(Std)` — `classify_imports` ran on the still-empty imports vector
before the extraction loop appended the fact. -/
theorem parse_leaves_import_origin_unassigned :
    (parse_imports [fileStdMem] [] ["serde"]).map (fun i => i.origin) = [none]
    ∧ (parse_imports [fileStdMem] [] ["serde"]).map (fun i => i.root) = ["std"] := by
  constructor
  · decide
  · decide

/-- Appending no output changes nothing. -/
theorem Occs.app_empty (o : Occs) : o.app Occs.empty = o := by
  cases o
  simp [Occs.app, Occs.empty]

/-- Output concatenation is associative. -/
theorem Occs.app_assoc (a b c : Occs) : (a.app b).app c = a.app (b.app c) := by
  cases a
  cases b
  cases c
  simp [Occs.app]

/-- Recording facts keeps the context. -/
theorem VState.addOccs_ctx (v : VState) (o : Occs) : (v.addOccs o).ctx = v.ctx := rfl

/-- Two recordings in a row concatenate. -/
theorem VState.addOccs_addOccs (v : VState) (a b : Occs) :
    (v.addOccs a).addOccs b = v.addOccs (a.app b) := by
  cases v
  simp [VState.addOccs, Occs.app_assoc]

mutual
/-- The stateful visitor restores its context and appends exactly the
reference annotator's output: the save/restore discipline realizes the
context-passing semantics. -/
theorem visitNode_spec (cr fp : String) :
    ∀ (n : Node) (v : VState),
      visitNode cr fp v n = ⟨v.ctx, v.outs.app (specNode cr fp v.ctx n)⟩
  | .modI name none, v => by
    simp [visitNode, specNode, Occs.app_empty]
  | .modI name (some items), v => by
    rw [visitNode, visitNodes_spec cr fp items _]
    simp [specNode, List.dropLast_concat]
  | .traitI name items, v => by
    rw [visitNode, visitNodes_spec cr fp items _]
    simp [specNode]
  | .implI selfTy traitPath items, v => by
    rw [visitNode, visitNodes_spec cr fp items _]
    simp [specNode]
  | .fnI isPub name body, v => by
    rw [visitNode, visitNodes_spec cr fp body _]
    simp [specNode]
  | .tfnI name body, v => by
    rw [visitNode, visitNodes_spec cr fp body _]
    simp [specNode]
  | .ifnI isPub name body, v => by
    rw [visitNode, visitNodes_spec cr fp body _]
    simp [specNode]
  | .macI ident segs, v => by
    rw [visitNode]
    by_cases hmr : (segs == ["macro_rules"]) = true
    · rw [if_pos hmr]
      rw [VState.addOccs_addOccs]
      simp [specNode, hmr, VState.addOccs]
    · rw [if_neg hmr]
      rw [VState.addOccs_addOccs]
      simp [specNode, hmr, VState.addOccs]
  | .useI a b c, v => by
    simp [visitNode, specNode, Occs.app_empty]
  | .callE calleeText sub, v => by
    rw [visitNode, visitNodes_spec cr fp sub _]
    simp [specNode, VState.addOccs, Occs.app_assoc]
  | .methodCallE m sub, v => by
    rw [visitNode, visitNodes_spec cr fp sub _]
    simp [specNode, VState.addOccs, Occs.app_assoc]
  | .macE segs, v => by
    rw [visitNode, VState.addOccs_addOccs]
    simp [specNode, VState.addOccs]
  | .pathE segs, v => by
    simp [visitNode, specNode, VState.addOccs]

/-- Sequence version of the correspondence. -/
theorem visitNodes_spec (cr fp : String) :
    ∀ (ns : List Node) (v : VState),
      visitNodes cr fp v ns = ⟨v.ctx, v.outs.app (specNodes cr fp v.ctx ns)⟩
  | [], v => by
    simp [visitNodes, specNodes, Occs.app_empty]
  | n :: ns, v => by
    rw [visitNodes, visitNode_spec cr fp n v, visitNodes_spec cr fp ns _]
    simp [specNodes, Occs.app_assoc]
end

/-- C6: the context-aware extractor equals the reference annotator — on
every parsed unit, each macro-invocation, path-occurrence and
call-occurrence fact recorded inside a function-like body carries
`enclosing_fn = Some(fq)` and `enclosing_public = Some(vis)` of the
innermost enclosing function (the context installed on entering exactly
that function's node), and each fact recorded at module scope carries
the absent annotation of the initial context. -/
theorem extract_occurrences_enclosing_context (crate_name file_path : String)
    (ast : List Node) :
    extract_occurrences crate_name file_path ast
      = specOccurrences crate_name file_path ast := by
  rw [extract_occurrences, visitNodes_spec crate_name file_path ast _]
  simp [specOccurrences, Occs.empty]
  rfl

/-- Concrete evaluation of the occurrence extractor: the call inside the
function is annotated with the function's fq name and visibility, the
module-scope path is not annotated. -/
theorem extract_occurrences_demo :
    extract_occurrences "demo" "lib.rs" demoAst =
      ⟨[], [],
       [⟨"std::mem", ["m"], noLoc "lib.rs", none, none⟩],
       [⟨"unwrap", ["m"], noLoc "lib.rs", some "demo::m::api", some true⟩]⟩ := by
  decide
